import Mathlib

/-!
Verification development for the web-demo-go URL-shortening service.

The Go sources are embedded shallowly:

* Strings manipulated by the URL normaliser are modelled as lists of
  Unicode code points (`List Nat`); the embedding of `net/url` parsing is
  restricted to well-formed absolute `scheme://host[:port]path?query#fragment`
  URLs over a printable ASCII alphabet without percent-escapes or userinfo,
  which is the domain the service's normaliser is exercised on.  Within that
  domain the parser mirrors Go `url.Parse` (fragment cut first, scheme
  lowered, lone trailing question mark handled via `ForceQuery`).
* `crypto/sha256` is embedded as a pure SHA-256 over byte lists, with all
  32-bit arithmetic carried out on `Nat` modulo `2 ^ 32`.
* Stateful stores become explicit state passing; Go `error` results become
  `Except`/`Option` values.
-/

/-! ## Byte-list utilities (ASCII code points as `Nat`) -/

/-- ASCII lowercasing of one code point, the byte-level behaviour of Go
`strings.ToLower` on the ASCII alphabet used by the URL grammar here. -/
def lowerN (n : Nat) : Nat := if 65 ≤ n ∧ n ≤ 90 then n + 32 else n

/-- Lowercase every code point of a word. -/
def lowerStr (l : List Nat) : List Nat := l.map lowerN

/-- Split a word at the first occurrence of the delimiter `d`, returning the
parts before and after it, or `none` when `d` does not occur (the shape of
`strings.Cut`). -/
def splitAtFirst (d : Nat) : List Nat → Option (List Nat × List Nat)
  | [] => none
  | c :: rest =>
    if c = d then some ([], rest)
    else
      match splitAtFirst d rest with
      | none => none
      | some (l, r) => some (c :: l, r)

/-- Number of occurrences of `d` (the shape of `strings.Count` for a
one-character pattern). -/
def countOcc (d : Nat) (l : List Nat) : Nat := (l.filter (fun c => c == d)).length

/-- Whether the word ends with the code point `d`. -/
def endsWithN (d : Nat) (l : List Nat) : Bool := l.getLast? == some d

/-- Go `strings.HasSuffix` on code-point lists. -/
def hasSuffixB (l suf : List Nat) : Bool :=
  decide (suf.length ≤ l.length) && decide (l.drop (l.length - suf.length) = suf)

/-- Go `strings.TrimSuffix` on code-point lists: remove one copy of `suf`
when it is a suffix, otherwise return the word unchanged. -/
def trimSuffixN (l suf : List Nat) : List Nat :=
  if hasSuffixB l suf then l.take (l.length - suf.length) else l

/-! ## Character classes of the URL grammar -/

/-- ASCII digit. -/
def isDigitN (n : Nat) : Bool := decide (48 ≤ n ∧ n ≤ 57)

/-- ASCII letter. -/
def isAlphaN (n : Nat) : Bool := decide ((65 ≤ n ∧ n ≤ 90) ∨ (97 ≤ n ∧ n ≤ 122))

/-- Characters allowed in a URI scheme (letters, digits, plus, dash, dot). -/
def isSchemeChar (n : Nat) : Bool :=
  decide ((65 ≤ n ∧ n ≤ 90) ∨ (97 ≤ n ∧ n ≤ 122) ∨ (48 ≤ n ∧ n ≤ 57) ∨
    n = 43 ∨ n = 45 ∨ n = 46)

/-- Characters allowed in a hostname (letters, digits, dot, dash). -/
def isHostBase (n : Nat) : Bool :=
  decide ((65 ≤ n ∧ n ≤ 90) ∨ (97 ≤ n ∧ n ≤ 122) ∨ (48 ≤ n ∧ n ≤ 57) ∨ n = 46 ∨ n = 45)

/-- Characters the embedding allows in a path: unreserved characters and the
sub-delimiters that Go `URL.EscapedPath` leaves untouched, so that parsing
and rendering are mutually inverse on this alphabet. -/
def isPathChar (n : Nat) : Bool :=
  decide ((65 ≤ n ∧ n ≤ 90) ∨ (97 ≤ n ∧ n ≤ 122) ∨ (48 ≤ n ∧ n ≤ 57) ∨
    n = 45 ∨ n = 95 ∨ n = 46 ∨ n = 126 ∨ n = 47 ∨ n = 58 ∨ n = 64 ∨
    n = 38 ∨ n = 61 ∨ n = 43 ∨ n = 44 ∨ n = 59)

/-- Characters the embedding allows in a raw query (path characters plus the
question mark, which Go keeps verbatim in `RawQuery`). -/
def isQueryChar (n : Nat) : Bool := isPathChar n || n == 63

/-- Validity of a scheme as in Go `getScheme`: nonempty, starts with a
letter, continues with scheme characters. -/
def checkScheme : List Nat → Bool
  | [] => false
  | c :: rest => isAlphaN c && rest.all isSchemeChar

/-- Scan the tail of a host: hostname characters until an optional colon,
after which only digits (the port) may follow. -/
def checkHostTail : List Nat → Bool
  | [] => true
  | c :: rest => if c == 58 then rest.all isDigitN else isHostBase c && checkHostTail rest

/-- Validity of a host: a nonempty hostname optionally followed by
`:digits`. -/
def checkHost : List Nat → Bool
  | [] => false
  | c :: rest => isHostBase c && checkHostTail rest

/-- Validity of a path: empty, or slash-initial over the path alphabet. -/
def checkPath (l : List Nat) : Bool := l.isEmpty || (l.headD 0 == 47 && l.all isPathChar)

/-! ## The URL record and `url.Parse` / `URL.String` -/

/-- The fields of Go `url.URL` that the service manipulates.  `rawQuery`
holds the query byte-for-byte; `forceQuery` records a lone trailing
question mark; an empty `fragment` stands for an absent fragment. -/
structure URL where
  scheme : List Nat
  host : List Nat
  path : List Nat
  rawQuery : List Nat
  forceQuery : Bool
  fragment : List Nat
deriving DecidableEq, Repr

/-- Cut the fragment at the first hash sign, as `url.Parse` does before
parsing anything else. -/
def cutFragment (cs : List Nat) : List Nat × List Nat :=
  match splitAtFirst 35 cs with
  | some (a, b) => (a, b)
  | none => (cs, [])

/-- Cut the query: a lone trailing question mark sets `forceQuery`;
otherwise the raw query is the text after the first question mark.  Returns
`(remainder, rawQuery, forceQuery)`. -/
def cutQuery (rest : List Nat) : List Nat × List Nat × Bool :=
  if endsWithN 63 rest && countOcc 63 rest == 1 then (rest.dropLast, [], true)
  else
    match splitAtFirst 63 rest with
    | some (a, b) => (a, b, false)
    | none => (rest, [], false)

/-- Cut the authority from the slash-initial remainder: the host extends to
the next slash (which stays on the path). -/
def cutAuthority (authPath : List Nat) : List Nat × List Nat :=
  match splitAtFirst 47 authPath with
  | none => (authPath, [])
  | some (h, p) => (h, 47 :: p)

/-- Embedding of Go `url.Parse` on the absolute-URL grammar described in the
module header, over code-point lists.  Following the Go implementation: the
fragment is cut at the first hash sign before anything else; the scheme is
the validated text before the first colon and is lowercased; a lone
trailing question mark sets `forceQuery`, otherwise the query is the text
after the first question mark; the authority follows a mandatory double
slash and extends to the next slash.  Inputs outside the grammar yield
`none`. -/
def parseBytes (cs : List Nat) : Option URL :=
  match splitAtFirst 58 (cutFragment cs).1 with
  | none => none
  | some (schemeRaw, rest1) =>
    if checkScheme schemeRaw then
      if (cutQuery rest1).1.take 2 = [47, 47] then
        if checkHost (cutAuthority ((cutQuery rest1).1.drop 2)).1 &&
            checkPath (cutAuthority ((cutQuery rest1).1.drop 2)).2 &&
            (cutQuery rest1).2.1.all isQueryChar then
          some { scheme := lowerStr schemeRaw,
                 host := (cutAuthority ((cutQuery rest1).1.drop 2)).1,
                 path := (cutAuthority ((cutQuery rest1).1.drop 2)).2,
                 rawQuery := (cutQuery rest1).2.1, forceQuery := (cutQuery rest1).2.2,
                 fragment := (cutFragment cs).2 }
        else none
      else none
    else none

/-- Embedding of Go `url.Parse` on strings: decode to code points and parse. -/
def parseURL (s : String) : Option URL :=
  parseBytes (s.data.map Char.toNat)

/-- The code points written by Go `URL.String` on the same grammar: scheme,
colon, double slash, host, path, then the query part when `forceQuery` is
set or the raw query is nonempty, then the fragment part when present. -/
def urlBytes (u : URL) : List Nat :=
  u.scheme ++ 58 :: 47 :: 47 :: u.host ++ u.path
    ++ (if u.forceQuery || !u.rawQuery.isEmpty then 63 :: u.rawQuery else [])
    ++ (if u.fragment.isEmpty then [] else 35 :: u.fragment)

/-- Embedding of Go `URL.String`: render the code points as a string. -/
def urlString (u : URL) : String :=
  String.mk ((urlBytes u).map Char.ofNat)

/-- The default-port stripping of `NormalizeURL` on the already-lowercased
host: drop a `:80` suffix under scheme `http`, a `:443` suffix under scheme
`https`.  The code-point literals spell `:80`, `http`, `:443`, `https`. -/
def normHost (scheme host0 : List Nat) : List Nat :=
  if hasSuffixB host0 [58, 56, 48] && scheme == [104, 116, 116, 112] then
    trimSuffixN host0 [58, 56, 48]
  else if hasSuffixB host0 [58, 52, 52, 51] && scheme == [104, 116, 116, 112, 115] then
    trimSuffixN host0 [58, 52, 52, 51]
  else host0

/-- The trailing-slash stripping of `NormalizeURL`: drop one trailing slash
unless the path is the bare root (length at most one). -/
def normPath (p : List Nat) : List Nat :=
  if decide (1 < p.length) && endsWithN 47 p then p.dropLast else p

/-- The transformations of `NormalizeURL` (internal/handlers, part_013) on a
parsed URL: lowercase scheme and host, strip the default port matching the
scheme, strip one trailing slash from a longer-than-root path, clear the
fragment. -/
def normalizeParsed (u : URL) : URL :=
  { scheme := lowerStr u.scheme,
    host := normHost (lowerStr u.scheme) (lowerStr u.host),
    path := normPath u.path,
    rawQuery := u.rawQuery, forceQuery := u.forceQuery, fragment := [] }

/-- Embedding of `NormalizeURL`: parse, transform, reassemble.  `none`
stands for the parse error surfaced by the Go function. -/
def NormalizeURL (rawURL : String) : Option String :=
  (parseURL rawURL).map (fun u => urlString (normalizeParsed u))

/-! ## The extended embedding: percent-escaped paths and `RawPath`

Go `url.Parse` stores the path decoded (`URL.Path`) and keeps the original
text in `URL.RawPath` when it is not the canonical re-encoding;
`URL.String` renders `EscapedPath`, which returns `RawPath` only while it
is still a valid encoding of `Path`.  The definitions below embed that
machinery of net/url (`unescape`, `shouldEscape`, `escape`, `validEncoded`,
`setPath`, `EscapedPath`) for paths, extending the escape-free grammar of
`parseBytes`. -/

/-- Value of a hexadecimal digit byte (`ishex`/`unhex` of net/url), `none`
for a non-hex byte. -/
def unhexN (c : Nat) : Option Nat :=
  if 48 ≤ c ∧ c ≤ 57 then some (c - 48)
  else if 97 ≤ c ∧ c ≤ 102 then some (c - 87)
  else if 65 ≤ c ∧ c ≤ 70 then some (c - 55)
  else none

/-- `unescape` of net/url in `encodePath` mode: decode every `%XX`, failing
on a malformed escape; all other bytes pass through. -/
def unescapePath : List Nat → Option (List Nat)
  | [] => some []
  | 37 :: c1 :: c2 :: rest =>
    match unhexN c1, unhexN c2 with
    | some h1, some h2 => (unescapePath rest).map (fun r => (h1 * 16 + h2) :: r)
    | _, _ => none
  | 37 :: _ => none
  | c :: rest => (unescapePath rest).map (fun r => c :: r)

/-- `shouldEscape` of net/url in `encodePath` mode: alphanumerics, the RFC
3986 unreserved marks `-_.~`, and every reserved character other than `?`
(`$ & + , / : ; = @`) stay unescaped; everything else is escaped. -/
def shouldEscapePathChar (c : Nat) : Bool :=
  if isAlphaN c || isDigitN c then false
  else if c == 45 || c == 95 || c == 46 || c == 126 then false
  else if c == 36 || c == 38 || c == 43 || c == 44 || c == 47 || c == 58 || c == 59 ||
          c == 61 || c == 64 then false
  else true

/-- Uppercase hexadecimal digit byte (the `upperhex` table of net/url
`escape`). -/
def upperHexDigit (n : Nat) : Nat := if n < 10 then 48 + n else 55 + n

/-- `escape` of net/url in `encodePath` mode. -/
def escapePath (l : List Nat) : List Nat :=
  l.flatMap fun c =>
    if shouldEscapePathChar c then [37, upperHexDigit (c / 16), upperHexDigit (c % 16)]
    else [c]

/-- `validEncoded` of net/url in `encodePath` mode: the bytes allowed to
stand in `RawPath` — sub-delims, `[` and `]`, `%`, and whatever
`shouldEscape` leaves alone (hex validity after `%` is checked by the later
`unescape`). -/
def validEncodedPath (l : List Nat) : Bool :=
  l.all fun c =>
    c == 33 || c == 36 || c == 38 || c == 39 || c == 40 || c == 41 || c == 42 ||
    c == 43 || c == 44 || c == 59 || c == 61 || c == 58 || c == 64 ||
    c == 91 || c == 93 || c == 37 || !(shouldEscapePathChar c)

/-- `URL.setPath` of net/url: store the decoded path, and keep the raw text
only when it differs from the canonical re-encoding of the decoded path. -/
def setPathE (p : List Nat) : Option (List Nat × List Nat) :=
  (unescapePath p).map fun decoded =>
    (decoded, if escapePath decoded = p then [] else p)

/-- `URL.EscapedPath` of net/url: `RawPath` while it is a valid encoding of
`Path`; the bare `*` untouched; otherwise the canonical escaping of
`Path`. -/
def escapedPathE (path rawPath : List Nat) : List Nat :=
  if rawPath ≠ [] ∧ validEncodedPath rawPath = true ∧ unescapePath rawPath = some path
  then rawPath
  else if path = [42] then [42]
  else escapePath path

/-- A path byte of the extended grammar: the escape-free path alphabet plus
the percent sign. -/
def isPathCharE (c : Nat) : Bool := isPathChar c || c == 37

/-- Path check of the extended grammar. -/
def checkPathE (l : List Nat) : Bool := l.isEmpty || (l.headD 0 == 47 && l.all isPathCharE)

/-- The fields of Go `url.URL` with `RawPath` tracked alongside the decoded
`Path`. -/
structure URLE where
  scheme : List Nat
  host : List Nat
  path : List Nat
  rawPath : List Nat
  rawQuery : List Nat
  forceQuery : Bool
  fragment : List Nat
deriving DecidableEq, Repr

/-- The escape-free projection: forget `RawPath`.  On it the differ-only-by
relations of the equivalence law read off the decoded components. -/
def URLE.toURL (u : URLE) : URL :=
  ⟨u.scheme, u.host, u.path, u.rawQuery, u.forceQuery, u.fragment⟩

/-- Embedding of Go `url.Parse` on the extended grammar: exactly
`parseBytes`, except that the raw path may carry percent-escapes and is
stored decoded via `setPathE`, with the raw text kept when it is not
canonical. -/
def parseBytesE (cs : List Nat) : Option URLE :=
  match splitAtFirst 58 (cutFragment cs).1 with
  | none => none
  | some (schemeRaw, rest1) =>
    if checkScheme schemeRaw then
      if (cutQuery rest1).1.take 2 = [47, 47] then
        if checkHost (cutAuthority ((cutQuery rest1).1.drop 2)).1 &&
            checkPathE (cutAuthority ((cutQuery rest1).1.drop 2)).2 &&
            (cutQuery rest1).2.1.all isQueryChar then
          match setPathE (cutAuthority ((cutQuery rest1).1.drop 2)).2 with
          | none => none
          | some (decoded, raw) =>
            some { scheme := lowerStr schemeRaw,
                   host := (cutAuthority ((cutQuery rest1).1.drop 2)).1,
                   path := decoded, rawPath := raw,
                   rawQuery := (cutQuery rest1).2.1, forceQuery := (cutQuery rest1).2.2,
                   fragment := (cutFragment cs).2 }
        else none
      else none
    else none

/-- Embedding of Go `url.Parse` (extended grammar) on strings. -/
def parseURLE (s : String) : Option URLE :=
  parseBytesE (s.data.map Char.toNat)

/-- The code points written by Go `URL.String` in the extended embedding:
as `urlBytes`, with the path rendered through `EscapedPath`. -/
def urlBytesE (u : URLE) : List Nat :=
  u.scheme ++ 58 :: 47 :: 47 :: u.host ++ escapedPathE u.path u.rawPath
    ++ (if u.forceQuery || !u.rawQuery.isEmpty then 63 :: u.rawQuery else [])
    ++ (if u.fragment.isEmpty then [] else 35 :: u.fragment)

/-- Embedding of Go `URL.String` in the extended embedding. -/
def urlStringE (u : URLE) : String :=
  String.mk ((urlBytesE u).map Char.ofNat)

/-- The transformations of `NormalizeURL` (part_013) on an extended parsed
URL: as `normalizeParsed` — the Go code mutates `u.Path` (the decoded path)
and never touches `u.RawPath`, which therefore goes stale whenever a
trailing slash is trimmed. -/
def normalizeParsedE (u : URLE) : URLE :=
  { scheme := lowerStr u.scheme,
    host := normHost (lowerStr u.scheme) (lowerStr u.host),
    path := normPath u.path, rawPath := u.rawPath,
    rawQuery := u.rawQuery, forceQuery := u.forceQuery, fragment := [] }

/-- Embedding of `NormalizeURL` over the extended grammar: parse, transform
the decoded fields, reassemble through `EscapedPath`. -/
def NormalizeURLE (rawURL : String) : Option String :=
  (parseURLE rawURL).map (fun u => urlStringE (normalizeParsedE u))

/-! ## SHA-256 (`crypto/sha256`) over `Nat` words modulo `2 ^ 32` -/

/-- The 32-bit modulus. -/
def w32 : Nat := 4294967296

/-- Right rotation of a 32-bit word. -/
def rotr32 (x n : Nat) : Nat := ((x >>> n) ||| (x <<< (32 - n))) % w32

/-- Three-way exclusive or. -/
def xor3 (a b c : Nat) : Nat := Nat.xor (Nat.xor a b) c

/-- FIPS 180-4 Sigma-0. -/
def bigSigma0 (x : Nat) : Nat := xor3 (rotr32 x 2) (rotr32 x 13) (rotr32 x 22)

/-- FIPS 180-4 Sigma-1. -/
def bigSigma1 (x : Nat) : Nat := xor3 (rotr32 x 6) (rotr32 x 11) (rotr32 x 25)

/-- FIPS 180-4 sigma-0. -/
def smallSigma0 (x : Nat) : Nat := xor3 (rotr32 x 7) (rotr32 x 18) (x >>> 3)

/-- FIPS 180-4 sigma-1. -/
def smallSigma1 (x : Nat) : Nat := xor3 (rotr32 x 17) (rotr32 x 19) (x >>> 10)

/-- FIPS 180-4 Ch, with 32-bit complement written as xor with `2 ^ 32 - 1`. -/
def chNat (x y z : Nat) : Nat :=
  Nat.xor (Nat.land x y) (Nat.land (Nat.xor x 4294967295) z)

/-- FIPS 180-4 Maj. -/
def majNat (x y z : Nat) : Nat := xor3 (Nat.land x y) (Nat.land x z) (Nat.land y z)

/-- The SHA-256 round constants. -/
def K256 : List Nat :=
  [1116352408, 1899447441, 3049323471, 3921009573, 961987163, 1508970993,
   2453635748, 2870763221, 3624381080, 310598401, 607225278, 1426881987,
   1925078388, 2162078206, 2614888103, 3248222580, 3835390401, 4022224774,
   264347078, 604807628, 770255983, 1249150122, 1555081692, 1996064986,
   2554220882, 2821834349, 2952996808, 3210313671, 3336571891, 3584528711,
   113926993, 338241895, 666307205, 773529912, 1294757372, 1396182291,
   1695183700, 1986661051, 2177026350, 2456956037, 2730485921, 2820302411,
   3259730800, 3345764771, 3516065817, 3600352804, 4094571909, 275423344,
   430227734, 506948616, 659060556, 883997877, 958139571, 1322822218,
   1537002063, 1747873779, 1955562222, 2024104815, 2227730452, 2361852424,
   2428436474, 2756734187, 3204031479, 3329325298]

/-- The working variables of the compression function. -/
structure Hash8 where
  a : Nat
  b : Nat
  c : Nat
  d : Nat
  e : Nat
  f : Nat
  g : Nat
  h : Nat
deriving DecidableEq, Repr

/-- The SHA-256 initial hash value. -/
def H0 : Hash8 :=
  ⟨1779033703, 3144134277, 1013904242, 2773480762,
   1359893119, 2600822924, 528734635, 1541459225⟩

/-- One compression round, consuming a `(word, constant)` pair. -/
def shaRound (s : Hash8) (wk : Nat × Nat) : Hash8 :=
  let t1 := (s.h + bigSigma1 s.e + chNat s.e s.f s.g + wk.2 + wk.1) % w32
  let t2 := (bigSigma0 s.a + majNat s.a s.b s.c) % w32
  ⟨(t1 + t2) % w32, s.a, s.b, s.c, (s.d + t1) % w32, s.e, s.f, s.g⟩

/-- Big-endian assembly of 32-bit words from bytes; the fuel keeps the
recursion structural so that the kernel can evaluate it. -/
def wordsOf : Nat → List Nat → List Nat
  | 0, _ => []
  | fuel + 1, b0 :: b1 :: b2 :: b3 :: rest =>
      (b0 * 16777216 + b1 * 65536 + b2 * 256 + b3) :: wordsOf fuel rest
  | _ + 1, _ => []

/-- Message-schedule extension; the accumulator is kept newest-first so that
the four taps are fixed positions from the front. -/
def extendW : Nat → List Nat → List Nat
  | 0, acc => acc
  | fuel + 1, acc =>
      let nw := (smallSigma1 (acc.getD 1 0) + acc.getD 6 0 +
                 smallSigma0 (acc.getD 14 0) + acc.getD 15 0) % w32
      extendW fuel (nw :: acc)

/-- Compress one 64-byte block into the running hash value. -/
def processBlock (hv : Hash8) (block : List Nat) : Hash8 :=
  let w := (extendW 48 (wordsOf 16 block).reverse).reverse
  let s := (w.zip K256).foldl shaRound hv
  ⟨(hv.a + s.a) % w32, (hv.b + s.b) % w32, (hv.c + s.c) % w32, (hv.d + s.d) % w32,
   (hv.e + s.e) % w32, (hv.f + s.f) % w32, (hv.g + s.g) % w32, (hv.h + s.h) % w32⟩

/-- Cut a byte list into 64-byte blocks (fuel-driven for kernel reduction). -/
def chunks64 : Nat → List Nat → List (List Nat)
  | 0, _ => []
  | _ + 1, [] => []
  | fuel + 1, l => l.take 64 :: chunks64 fuel (l.drop 64)

/-- Big-endian 8-byte encoding of the message bit length. -/
def lenBytesBE (bits : Nat) : List Nat :=
  [bits >>> 56 % 256, bits >>> 48 % 256, bits >>> 40 % 256, bits >>> 32 % 256,
   bits >>> 24 % 256, bits >>> 16 % 256, bits >>> 8 % 256, bits % 256]

/-- SHA-256 padding: a `0x80` byte, zeros to 56 modulo 64, then the bit
length. -/
def padMessage (msg : List Nat) : List Nat :=
  let padLen := (119 - msg.length % 64) % 64
  msg ++ 128 :: List.replicate padLen 0 ++ lenBytesBE (msg.length * 8)

/-- Big-endian bytes of one 32-bit word. -/
def wordBytesBE (x : Nat) : List Nat := [x >>> 24 % 256, x >>> 16 % 256, x >>> 8 % 256, x % 256]

/-- SHA-256 of a byte list, as the 32 digest bytes. -/
def sha256 (msg : List Nat) : List Nat :=
  let padded := padMessage msg
  let final := (chunks64 padded.length padded).foldl processBlock H0
  wordBytesBE final.a ++ wordBytesBE final.b ++ wordBytesBE final.c ++ wordBytesBE final.d ++
  wordBytesBE final.e ++ wordBytesBE final.f ++ wordBytesBE final.g ++ wordBytesBE final.h

/-- Lowercase hexadecimal digit. -/
def hexDigitChar (n : Nat) : Char := if n < 10 then Char.ofNat (48 + n) else Char.ofNat (87 + n)

/-- Lowercase hexadecimal rendering of a byte list. -/
def hexOfBytes (bs : List Nat) : List Char :=
  bs.foldr (fun b acc => hexDigitChar (b / 16) :: hexDigitChar (b % 16) :: acc) []

/-- UTF-8 encoding of one character. -/
def utf8EncodeChar (c : Char) : List Nat :=
  let n := c.toNat
  if n < 128 then [n]
  else if n < 2048 then [192 + n / 64, 128 + n % 64]
  else if n < 65536 then [224 + n / 4096, 128 + n / 64 % 64, 128 + n % 64]
  else [240 + n / 262144, 128 + n / 4096 % 64, 128 + n / 64 % 64, 128 + n % 64]

/-- UTF-8 encoding of a string, as Go obtains the bytes of a `string`. -/
def utf8Encode (s : String) : List Nat := s.data.foldr (fun c acc => utf8EncodeChar c ++ acc) []

/-- Embedding of `HashURL` (part_013): SHA-256 over the UTF-8 bytes of the
normalised URL, rendered as 64 lowercase hexadecimal characters. -/
def HashURL (normalizedURL : String) : String :=
  String.mk (hexOfBytes (sha256 (utf8Encode normalizedURL)))

/-! ## Shortener entities and the hash strategy (internal/shortener) -/

/-- The `ShortURL` entity (part_008).  `createdAt` models `time.Time` as an
integer instant; `urlHash` is empty for token-strategy records. -/
structure ShortURL where
  code : String
  originalURL : String
  urlHash : String
  createdAt : Int
deriving DecidableEq, Repr

/-- The repository the strategies run against, modelled as the list of saved
records in insertion order.  It never fails, so lookups return an `Option`
(`none` standing for `ErrNotFound`). -/
abbrev Repo := List ShortURL

/-- Lookup by hash: the first saved record whose `urlHash` matches. -/
def Repo.getByHash (repo : Repo) (hash : String) : Option ShortURL :=
  repo.find? (fun r => r.urlHash == hash)

/-- Persist a record. -/
def Repo.save (repo : Repo) (r : ShortURL) : Repo := repo ++ [r]

/-- The error surfaced by `HashStrategy.Shorten` when `NormalizeURL` fails. -/
inductive ShortenError where
  | invalidURL
deriving DecidableEq, Repr

/-- Embedding of `HashStrategy.Shorten` (internal/shortener/strategy.go):
normalise, hash, look up by hash; on a hit return the existing record with
the repository untouched; on a miss persist a record carrying a freshly
generated code (passed in as `generateCode`), the raw URL, the computed
hash and the current instant. -/
def HashStrategy.Shorten (generateCode : String) (now : Int) (rawURL : String) (repo : Repo) :
    Except ShortenError (ShortURL × Repo) :=
  match NormalizeURL rawURL with
  | none => Except.error ShortenError.invalidURL
  | some normalizedURL =>
    let urlHash := HashURL normalizedURL
    match Repo.getByHash repo urlHash with
    | some existing => Except.ok (existing, repo)
    | none =>
      let shortURL : ShortURL :=
        { code := generateCode, originalURL := rawURL, urlHash := urlHash, createdAt := now }
      Except.ok (shortURL, Repo.save repo shortURL)

/-! ## The in-memory URL store (part_003) and the Postgres store -/

/-- State of `MemoryStore`: the `code to url` and `urlHash to code` maps,
modelled as total functions into `Option`, matching Go map lookup. -/
structure MemoryStore where
  urls : String → Option String
  hashes : String → Option String

/-- A freshly constructed `MemoryStore` (`NewMemoryStore`). -/
def MemoryStore.empty : MemoryStore := ⟨fun _ => none, fun _ => none⟩

/-- Embedding of `MemoryStore.Save`: `m.urls[code] = url`, a plain map
assignment. -/
def MemoryStore.Save (m : MemoryStore) (code url : String) : MemoryStore :=
  { m with urls := fun c => if c = code then some url else m.urls c }

/-- Embedding of `MemoryStore.Get`; `none` stands for `ErrNotFound`. -/
def MemoryStore.Get (m : MemoryStore) (code : String) : Option String := m.urls code

/-- Embedding of `MemoryStore.SaveWithHash`: assigns both maps. -/
def MemoryStore.SaveWithHash (m : MemoryStore) (code url urlHash : String) : MemoryStore :=
  { urls := fun c => if c = code then some url else m.urls c,
    hashes := fun h => if h = urlHash then some code else m.hashes h }

/-- Embedding of `MemoryStore.GetCodeByHash`; `none` stands for
`ErrNotFound`. -/
def MemoryStore.GetCodeByHash (m : MemoryStore) (urlHash : String) : Option String :=
  m.hashes urlHash

/-- One row of the `short_urls` table (`url_hash` is nullable). -/
structure PGRow where
  code : String
  originalURL : String
  urlHash : Option String
  createdAt : Int
deriving DecidableEq, Repr

/-- State of the durable store: the rows of `short_urls`, whose primary key
is `code`. -/
abbrev PostgresStore := List PGRow

/-- Embedding of the `nullableString` helper of internal/store/postgres.go. -/
def nullableString (s : String) : Option String := if s = "" then none else some s

/-- Embedding of `PostgresStore.Save`: the effect of
`INSERT ... ON CONFLICT (code) DO NOTHING` on the rows — insert unless a row
with the same code already exists. -/
def PostgresStore.Save (db : PostgresStore) (s : ShortURL) : PostgresStore :=
  if db.any (fun row => row.code == s.code) then db
  else db ++ [{ code := s.code, originalURL := s.originalURL,
                urlHash := nullableString s.urlHash, createdAt := s.createdAt }]

/-- Embedding of `PostgresStore.GetByCode`: the first row with the code,
mapped back to a `ShortURL` (a null hash reads back as the empty string);
`none` stands for `ErrNotFound`. -/
def PostgresStore.GetByCode (db : PostgresStore) (code : String) : Option ShortURL :=
  (db.find? (fun row => row.code == code)).map fun row =>
    { code := row.code, originalURL := row.originalURL,
      urlHash := row.urlHash.getD "", createdAt := row.createdAt }

/-! ## The in-memory rate-limit counter store (part_002) -/

/-- State of `RateLimitMemoryStore`: the per-key timestamp lists, with the
Go-map default of an empty list for absent keys.  Instants are integers. -/
abbrev RLState := String → List Int

/-- The freshly constructed store (`NewRateLimitMemoryStore`). -/
def RLState.empty : RLState := fun _ => []

/-- Embedding of `RateLimitMemoryStore.Record`: with `cutoff = now - window`
keep the timestamps strictly after the cutoff (`ts.After(cutoff)`), append
the current instant, store the result and return its length.  `now` is the
explicit image of `time.Now()`. -/
def RateLimitMemoryStore.Record (now : Int) (key : String) (window : Int) (st : RLState) :
    Int × RLState :=
  let cutoff := now - window
  let valid := (st key).filter (fun ts => decide (cutoff < ts))
  let valid2 := valid ++ [now]
  ((valid2.length : Int), fun k => if k = key then valid2 else st k)

/-! ## Policy limiter (part_007) -/

/-- Scopes are strings in the source (`type Scope string`). -/
abbrev Scope := String

/-- A limit: a window (`time.Duration`, nanoseconds) and a maximum count. -/
structure LimitConfig where
  window : Int
  max : Int
deriving DecidableEq, Repr

/-- A policy: the `Limits` map from scope to its registered limit list,
modelled as Go map lookup. -/
structure Policy where
  limits : Scope → Option (List LimitConfig)

/-- The `LimitExceeded` report. -/
structure LimitExceeded where
  scope : Scope
  config : LimitConfig
  count : Int
deriving DecidableEq, Repr

/-- The result triple of `PolicyLimiter.Allow`: `(allowed, *LimitExceeded,
error)`. -/
structure AllowResult where
  allowed : Bool
  exceeded : Option LimitExceeded
  error : Option String
deriving DecidableEq, Repr

/-- Embedding of `PolicyLimiter.buildKey`:
`fmt.Sprintf("%s:%s:%d", clientKey, scope, limit.Window.Milliseconds())`,
with `Milliseconds` the truncated division of nanoseconds by one million. -/
def PolicyLimiter.buildKey (clientKey : String) (scope : Scope) (limit : LimitConfig) : String :=
  clientKey ++ ":" ++ scope ++ ":" ++ toString (limit.window.tdiv 1000000)

/-- A counter store for the limiter: `Record(ctx, key, window)` returning a
count or an error, passing state explicitly.  An erroring call is modelled
as leaving the state unchanged. -/
def RecordFn (σ : Type) : Type := String → Int → σ → Except String (Int × σ)

/-- Outcome of scanning the limits of one scope: either evaluation goes on
with the updated store state, or it stops with a final result. -/
inductive CheckStep (σ : Type) where
  | cont (st : σ)
  | stop (r : AllowResult) (st : σ)

/-- The inner loop of `PolicyLimiter.Allow` over the limits registered for
one scope: record, short-circuit on a store error, stop at the first count
exceeding the maximum. -/
def PolicyLimiter.checkLimits {σ : Type} (record : RecordFn σ) (clientKey : String)
    (scope : Scope) : List LimitConfig → σ → CheckStep σ
  | [], st => CheckStep.cont st
  | limit :: rest, st =>
    match record (PolicyLimiter.buildKey clientKey scope limit) limit.window st with
    | Except.error e => CheckStep.stop ⟨false, none, some e⟩ st
    | Except.ok (count, st1) =>
      if limit.max < count then
        CheckStep.stop ⟨false, some ⟨scope, limit, count⟩, none⟩ st1
      else
        PolicyLimiter.checkLimits record clientKey scope rest st1

/-- The outer loop of `PolicyLimiter.Allow` over the resolved scopes; a
scope absent from the policy map is skipped (`continue`). -/
def PolicyLimiter.allowScopes {σ : Type} (record : RecordFn σ) (policy : Policy)
    (clientKey : String) : List Scope → σ → AllowResult × σ
  | [], st => (⟨true, none, none⟩, st)
  | scope :: rest, st =>
    match policy.limits scope with
    | none => PolicyLimiter.allowScopes record policy clientKey rest st
    | some limits =>
      match PolicyLimiter.checkLimits record clientKey scope limits st with
      | CheckStep.stop r st1 => (r, st1)
      | CheckStep.cont st1 => PolicyLimiter.allowScopes record policy clientKey rest st1

/-- Embedding of `PolicyLimiter.Allow` (part_007). -/
def PolicyLimiter.Allow {σ : Type} (record : RecordFn σ) (policy : Policy) (clientKey : String)
    (scopes : List Scope) (st : σ) : AllowResult × σ :=
  PolicyLimiter.allowScopes record policy clientKey scopes st

/-- The checks `Allow` is specified to perform, in specification order: for
each scope in the input list, in order, the limits registered for that
scope, in registration order.  Written from the specification text for the
refinement theorem. -/
def checksFor (policy : Policy) (scopes : List Scope) : List (Scope × LimitConfig) :=
  scopes.flatMap fun scope =>
    match policy.limits scope with
    | none => []
    | some limits => limits.map (fun l => (scope, l))

/-- The specification of `Allow` as a single left-to-right scan of the check
list: any store error short-circuits to `(false, nil, err)`; the first
overage terminates with `(false, details, nil)`; otherwise `(true, nil,
nil)`.  Written from the specification text for the refinement theorem. -/
def specScan {σ : Type} (record : RecordFn σ) (clientKey : String) :
    List (Scope × LimitConfig) → σ → AllowResult × σ
  | [], st => (⟨true, none, none⟩, st)
  | (scope, limit) :: rest, st =>
    match record (PolicyLimiter.buildKey clientKey scope limit) limit.window st with
    | Except.error e => (⟨false, none, some e⟩, st)
    | Except.ok (count, st1) =>
      if limit.max < count then (⟨false, some ⟨scope, limit, count⟩, none⟩, st1)
      else specScan record clientKey rest st1

/-- The in-memory counter store packaged as a `RecordFn` for the limiter:
it never fails. -/
def memRecord (now : Int) : RecordFn RLState := fun key window st =>
  Except.ok (RateLimitMemoryStore.Record now key window st)

/-- The store states reached by recording a list of checks in order (the
state trace of a scan that found no overage yet). -/
def recordChecks (now : Int) (clientKey : String) (checks : List (Scope × LimitConfig))
    (st : RLState) : RLState :=
  checks.foldl
    (fun s c => (RateLimitMemoryStore.Record now (PolicyLimiter.buildKey clientKey c.1 c.2)
      c.2.window s).2) st

/-! ## The URL handler (part_015) -/

/-- Errors a handler returns, mirroring the huma error constructors used. -/
inductive HandlerError where
  | badRequest (msg : String)
  | notFound (msg : String)
  | internal (msg : String)
deriving DecidableEq, Repr

/-- The request metadata carried in the context. -/
structure RequestMeta where
  clientIP : String
  userAgent : String
  referrer : String
deriving DecidableEq, Repr

/-- The `URLCreatedEvent` of internal/analytics. -/
structure URLCreatedEvent where
  code : String
  originalURL : String
  urlHash : String
  strategy : String
  createdAt : Int
  clientIP : String
  userAgent : String
deriving DecidableEq, Repr

/-- The `URLAccessedEvent` of internal/analytics. -/
structure URLAccessedEvent where
  code : String
  accessedAt : Int
  clientIP : String
  userAgent : String
  referrer : String
deriving DecidableEq, Repr

/-- The success response of `CreateShortURL`: the `Location` header and the
JSON body fields. -/
structure CreateShortURLResponse where
  locationHeader : String
  code : String
  shortURL : String
  originalURL : String
deriving DecidableEq, Repr

/-- The redirect response: status and `Location` header. -/
structure RedirectResponse where
  status : Nat
  locationHeader : String
deriving DecidableEq, Repr

/-- Errors of the repository read on the redirect path: `ErrNotFound` or
any other storage error. -/
inductive StoreError where
  | notFound
  | other (msg : String)
deriving DecidableEq, Repr

/-- The collaborators of `URLHandler`, as pure functions: the strategy map,
the repository read used by the redirect path, and the two typed publish
functions whose `error` results the handler logs and swallows. -/
structure URLHandler where
  strategies : String → Option (String → Except String ShortURL)
  getByCode : String → Except StoreError ShortURL
  baseURL : String
  defaultStrategy : String
  publishURLCreated : URLCreatedEvent → Except String Unit
  publishURLAccessed : URLAccessedEvent → Except String Unit

/-- Embedding of `URLHandler.CreateShortURL` (part_015): default the
strategy name, reject unknown strategies with a 400, map a strategy error
to an opaque 500, build and publish the created event discarding any
publish error, and answer with the JSON body plus `Location` header. -/
def URLHandler.CreateShortURL (h : URLHandler) (meta : RequestMeta)
    (reqURL reqStrategy : String) : Except HandlerError CreateShortURLResponse :=
  let strategyName := if reqStrategy = "" then h.defaultStrategy else reqStrategy
  match h.strategies strategyName with
  | none => Except.error (HandlerError.badRequest "invalid strategy: must be token or hash")
  | some strategy =>
    match strategy reqURL with
    | Except.error _ => Except.error (HandlerError.internal "failed to save url")
    | Except.ok shortURL =>
      let event : URLCreatedEvent :=
        { code := shortURL.code, originalURL := shortURL.originalURL,
          urlHash := shortURL.urlHash, strategy := strategyName,
          createdAt := shortURL.createdAt, clientIP := meta.clientIP,
          userAgent := meta.userAgent }
      let _published := h.publishURLCreated event
      let fullShortURL := h.baseURL ++ "/" ++ shortURL.code
      Except.ok { locationHeader := fullShortURL, code := shortURL.code,
                  shortURL := fullShortURL, originalURL := shortURL.originalURL }

/-- Embedding of `URLHandler.RedirectToURL` (part_015): fetch by code,
mapping `ErrNotFound` to 404 and other errors to 500; build and publish the
accessed event discarding any publish error; answer 301 with the original
URL in `Location`. -/
def URLHandler.RedirectToURL (h : URLHandler) (meta : RequestMeta) (now : Int)
    (reqCode : String) : Except HandlerError RedirectResponse :=
  match h.getByCode reqCode with
  | Except.error StoreError.notFound => Except.error (HandlerError.notFound "short url not found")
  | Except.error (StoreError.other _) => Except.error (HandlerError.internal "failed to get url")
  | Except.ok shortURL =>
    let event : URLAccessedEvent :=
      { code := reqCode, accessedAt := now, clientIP := meta.clientIP,
        userAgent := meta.userAgent, referrer := meta.referrer }
    let _published := h.publishURLAccessed event
    Except.ok { status := 301, locationHeader := shortURL.originalURL }

/-! ## The analytics consumer (part_006) -/

/-- Topic of URL-created events. -/
def TopicURLCreated : String := "url.created"

/-- Topic of URL-accessed events. -/
def TopicURLAccessed : String := "url.accessed"

/-- Observable outcome of `Consumer.Start`: the returned error, the
subscriptions that remain active when it returns, and whether the consume
worker goroutine was started. -/
structure ConsumerStartResult where
  errorResult : Option String
  activeSubscriptions : List String
  workerStarted : Bool
deriving DecidableEq, Repr

/-- Embedding of `Consumer.Start` (part_006).  `subscribe t` is the error
result of `subscriber.Subscribe(ctx, t)`; a successful subscribe leaves an
active subscription bound to the start context.  The source returns on the
first failing subscribe without invoking the stored cancel function, so a
subscription created before the failure stays active; the worker goroutine
is only launched after both subscribes succeed. -/
def Consumer.Start (subscribe : String → Option String) : ConsumerStartResult :=
  match subscribe TopicURLCreated with
  | some e => { errorResult := some e, activeSubscriptions := [], workerStarted := false }
  | none =>
    match subscribe TopicURLAccessed with
    | some e =>
        { errorResult := some e, activeSubscriptions := [TopicURLCreated],
          workerStarted := false }
    | none =>
        { errorResult := none,
          activeSubscriptions := [TopicURLCreated, TopicURLAccessed], workerStarted := true }

/-- The well-formedness invariant every URL produced by `parseBytes`
satisfies: validated scheme already in lowercase, validated host and path,
query over the query alphabet, and an empty query whenever `forceQuery` is
set. -/
def ValidURL (u : URL) : Prop :=
  checkScheme u.scheme = true ∧ lowerStr u.scheme = u.scheme ∧
  checkHost u.host = true ∧ checkPath u.path = true ∧
  u.rawQuery.all isQueryChar = true ∧ (u.forceQuery = true → u.rawQuery = [])

/-- The default port the normaliser strips for a scheme: `:80` for `http`,
`:443` for `https` (code-point literals). -/
def defaultPort (scheme : List Nat) : Option (List Nat) :=
  if scheme = [104, 116, 116, 112] then some [58, 56, 48]
  else if scheme = [104, 116, 116, 112, 115] then some [58, 52, 52, 51]
  else none

/-- Hosts that differ only by letter case or by one default-port suffix for
the given (lowercased) scheme. -/
def hostsDifferOnly (scheme h1 h2 : List Nat) : Bool :=
  (lowerStr h1 == lowerStr h2) ||
    (match defaultPort scheme with
     | some port => lowerStr h1 == lowerStr h2 ++ port || lowerStr h2 == lowerStr h1 ++ port
     | none => false)

/-- Paths that differ only by a single trailing slash on a non-root path:
the trailing-slash clause exactly as the claim states it. -/
def pathsDifferOnly (p1 p2 : List Nat) : Bool :=
  p1 == p2 || (p1 == p2 ++ [47] && !(p2 == [])) || (p2 == p1 ++ [47] && !(p1 == []))

/-- Two parsed URLs that differ only by case of scheme or host, a
default-port suffix, a single trailing slash on a non-root path, or the
fragment — the hypothesis of the equivalence law as claimed. -/
def differOnlyByClaim (a b : URL) : Bool :=
  (lowerStr a.scheme == lowerStr b.scheme) &&
  hostsDifferOnly (lowerStr a.scheme) a.host b.host &&
  pathsDifferOnly a.path b.path &&
  (a.rawQuery == b.rawQuery) && (a.forceQuery == b.forceQuery)

/-- As `pathsDifferOnly`, but the shorter path may not itself end in a
slash — the repaired trailing-slash clause. -/
def pathsDifferOnlyStrict (p1 p2 : List Nat) : Bool :=
  p1 == p2 || (p1 == p2 ++ [47] && !(p2 == []) && !(endsWithN 47 p2)) ||
    (p2 == p1 ++ [47] && !(p1 == []) && !(endsWithN 47 p1))

/-- The amended differ-only-by relation. -/
def differOnlyByAmended (a b : URL) : Bool :=
  (lowerStr a.scheme == lowerStr b.scheme) &&
  hostsDifferOnly (lowerStr a.scheme) a.host b.host &&
  pathsDifferOnlyStrict a.path b.path &&
  (a.rawQuery == b.rawQuery) && (a.forceQuery == b.forceQuery)

/-! ## Supporting definitions for the claim statements -/

/-- Code points of a string literal, for writing concrete URLs in
counterexamples. -/
def strBytes (s : String) : List Nat := s.data.map Char.toNat

/-- The store states reached by a sequence of `Record` calls at the given
instants for one key. -/
def recordSeqState (k : String) (w : Int) (ts : List Int) (st : RLState) : RLState :=
  ts.foldl (fun s t => (RateLimitMemoryStore.Record t k w s).2) st

/-- Continue a scan with further checks when the result so far is an
all-pass, stop otherwise. -/
def scanThen {σ : Type} (record : RecordFn σ) (ck : String)
    (ys : List (Scope × LimitConfig)) (p : AllowResult × σ) : AllowResult × σ :=
  if p.1.allowed then specScan record ck ys p.2 else p

/-! ## Lemmas: lowercasing, splitting, suffixes -/

theorem lowerN_idem (n : Nat) : lowerN (lowerN n) = lowerN n := by
  simp only [lowerN]
  split_ifs <;> omega

theorem lowerStr_idem (l : List Nat) : lowerStr (lowerStr l) = lowerStr l := by
  induction l with
  | nil => rfl
  | cons a t ih =>
    simp only [lowerStr, List.map_cons, List.cons.injEq] at ih ⊢
    exact ⟨lowerN_idem a, ih⟩

theorem splitAtFirst_eq_none {d : Nat} {l : List Nat} (h : d ∉ l) : splitAtFirst d l = none := by
  induction l with
  | nil => rfl
  | cons c rest ih =>
    simp only [List.mem_cons, not_or] at h
    simp only [splitAtFirst]
    rw [if_neg (fun hc => h.1 hc.symm), ih h.2]

theorem splitAtFirst_append {d : Nat} {l : List Nat} (r : List Nat) (h : d ∉ l) :
    splitAtFirst d (l ++ d :: r) = some (l, r) := by
  induction l with
  | nil => simp [splitAtFirst]
  | cons c rest ih =>
    simp only [List.mem_cons, not_or] at h
    simp only [List.cons_append, splitAtFirst]
    rw [show rest.append (d :: r) = rest ++ d :: r from rfl]
    rw [if_neg (fun hc => h.1 hc.symm), ih h.2]

theorem countOcc_eq_count (d : Nat) (l : List Nat) : countOcc d l = l.count d := by
  simp [countOcc, List.count, List.countP_eq_length_filter]

theorem countOcc_eq_zero {d : Nat} {l : List Nat} (h : d ∉ l) : countOcc d l = 0 := by
  rw [countOcc_eq_count]
  exact List.count_eq_zero.mpr h

theorem countOcc_append (d : Nat) (l r : List Nat) :
    countOcc d (l ++ r) = countOcc d l + countOcc d r := by
  simp [countOcc_eq_count, List.count_append]

theorem endsWithN_concat (d : Nat) (l : List Nat) : endsWithN d (l ++ [d]) = true := by
  simp [endsWithN, List.getLast?_concat]

theorem endsWithN_eq_false {d : Nat} {l : List Nat} (h : d ∉ l) : endsWithN d l = false := by
  unfold endsWithN
  cases hl : l.getLast? with
  | none => rfl
  | some a =>
    have hmem : a ∈ l.getLast? := Option.mem_def.mpr hl
    obtain ⟨hne, rfl⟩ := List.mem_getLast?_eq_getLast hmem
    have ha : l.getLast hne ∈ l := List.getLast_mem hne
    have : l.getLast hne ≠ d := fun e => h (e ▸ ha)
    simpa using this

theorem hasSuffixB_concat_self (x s : List Nat) : hasSuffixB (x ++ s) s = true := by
  unfold hasSuffixB
  simp only [List.length_append, Nat.add_sub_cancel, Bool.and_eq_true, decide_eq_true_eq]
  exact ⟨by omega, List.drop_left x s⟩

theorem trimSuffixN_concat_self (x s : List Nat) : trimSuffixN (x ++ s) s = x := by
  unfold trimSuffixN
  rw [if_pos (hasSuffixB_concat_self x s)]
  simp only [List.length_append, Nat.add_sub_cancel]
  exact List.take_left x s

theorem mem_of_hasSuffixB {l s : List Nat} (h : hasSuffixB l s = true) {c : Nat} (hc : c ∈ s) :
    c ∈ l := by
  unfold hasSuffixB at h
  simp only [Bool.and_eq_true, decide_eq_true_eq] at h
  exact List.drop_subset _ l (h.2 ▸ hc)

theorem hasSuffixB_eq_false_of_not_mem {l s : List Nat} {c : Nat} (hc : c ∈ s) (h : c ∉ l) :
    hasSuffixB l s = false := by
  cases hs : hasSuffixB l s with
  | false => rfl
  | true => exact absurd (mem_of_hasSuffixB hs hc) h

theorem char_toNat_ofNat {n : Nat} (h : n < 55296) : (Char.ofNat n).toNat = n := by
  have hv : n.isValidChar := Or.inl h
  simp [Char.ofNat, hv, Char.ofNatAux, Char.toNat, UInt32.toNat, UInt32.ofNatCore,
    BitVec.toNat_ofNatLt]

theorem data_map_roundtrip {l : List Nat} (h : ∀ n ∈ l, n < 55296) :
    (String.mk (l.map Char.ofNat)).data.map Char.toNat = l := by
  show (l.map Char.ofNat).map Char.toNat = l
  induction l with
  | nil => rfl
  | cons a t ih =>
    simp only [List.map_cons, List.cons.injEq]
    exact ⟨char_toNat_ofNat (h a (List.mem_cons_self a t)),
      ih (fun n hn => h n (List.mem_cons_of_mem a hn))⟩

/-! ## Lemmas: character classes -/

theorem isSchemeChar_bounds {n : Nat} (h : isSchemeChar n = true) :
    n ≠ 35 ∧ n ≠ 58 ∧ n ≠ 63 ∧ n ≠ 47 ∧ n < 55296 := by
  simp only [isSchemeChar, decide_eq_true_eq] at h
  omega

theorem isHostBase_bounds {n : Nat} (h : isHostBase n = true) :
    n ≠ 35 ∧ n ≠ 58 ∧ n ≠ 63 ∧ n ≠ 47 ∧ n < 55296 := by
  simp only [isHostBase, decide_eq_true_eq] at h
  omega

theorem isDigitN_bounds {n : Nat} (h : isDigitN n = true) :
    n ≠ 35 ∧ n ≠ 58 ∧ n ≠ 63 ∧ n ≠ 47 ∧ n < 55296 := by
  simp only [isDigitN, decide_eq_true_eq] at h
  omega

theorem isPathChar_bounds {n : Nat} (h : isPathChar n = true) :
    n ≠ 35 ∧ n ≠ 63 ∧ n < 55296 := by
  simp only [isPathChar, decide_eq_true_eq] at h
  omega

theorem isQueryChar_bounds {n : Nat} (h : isQueryChar n = true) :
    n ≠ 35 ∧ n < 55296 := by
  simp only [isQueryChar, isPathChar, Bool.or_eq_true, decide_eq_true_eq, beq_iff_eq] at h
  omega

theorem isAlphaN_isSchemeChar {n : Nat} (h : isAlphaN n = true) : isSchemeChar n = true := by
  simp only [isAlphaN, isSchemeChar, decide_eq_true_eq] at h ⊢
  omega

theorem checkScheme_mem {l : List Nat} (h : checkScheme l = true) {c : Nat} (hc : c ∈ l) :
    isSchemeChar c = true := by
  cases l with
  | nil => cases hc
  | cons a t =>
    simp only [checkScheme, Bool.and_eq_true, List.all_eq_true] at h
    rcases List.mem_cons.mp hc with rfl | hct
    · exact isAlphaN_isSchemeChar h.1
    · exact h.2 c hct

theorem checkHostTail_mem {l : List Nat} (h : checkHostTail l = true) {c : Nat} (hc : c ∈ l) :
    isHostBase c = true ∨ c = 58 ∨ isDigitN c = true := by
  induction l with
  | nil => cases hc
  | cons a t ih =>
    simp only [checkHostTail] at h
    by_cases ha : a = 58
    · rw [if_pos (by simpa using ha)] at h
      rcases List.mem_cons.mp hc with rfl | hct
      · exact Or.inr (Or.inl ha)
      · exact Or.inr (Or.inr (List.all_eq_true.mp h _ hct))
    · rw [if_neg (by simpa using ha)] at h
      simp only [Bool.and_eq_true] at h
      rcases List.mem_cons.mp hc with rfl | hct
      · exact Or.inl h.1
      · exact ih h.2 hct

theorem checkHost_mem {l : List Nat} (h : checkHost l = true) {c : Nat} (hc : c ∈ l) :
    isHostBase c = true ∨ c = 58 ∨ isDigitN c = true := by
  cases l with
  | nil => cases hc
  | cons a t =>
    simp only [checkHost, Bool.and_eq_true] at h
    rcases List.mem_cons.mp hc with rfl | hct
    · exact Or.inl h.1
    · exact checkHostTail_mem h.2 hct

theorem checkHost_bounds {l : List Nat} (h : checkHost l = true) {c : Nat} (hc : c ∈ l) :
    c ≠ 35 ∧ c ≠ 63 ∧ c ≠ 47 ∧ c < 55296 := by
  rcases checkHost_mem h hc with hb | rfl | hd
  · have := isHostBase_bounds hb
    omega
  · omega
  · have := isDigitN_bounds hd
    omega

theorem checkPath_mem {l : List Nat} (h : checkPath l = true) {c : Nat} (hc : c ∈ l) :
    isPathChar c = true := by
  cases l with
  | nil => cases hc
  | cons a t =>
    simp only [checkPath, List.isEmpty_cons, Bool.false_or, Bool.and_eq_true,
      List.all_eq_true] at h
    exact h.2 c hc

/-! ## Lemmas: lowercasing preserves the grammar -/

theorem lowerN_isAlphaN {n : Nat} (h : isAlphaN n = true) : isAlphaN (lowerN n) = true := by
  simp only [isAlphaN, decide_eq_true_eq] at h ⊢
  simp only [lowerN]
  split_ifs <;> omega

theorem lowerN_isSchemeChar {n : Nat} (h : isSchemeChar n = true) :
    isSchemeChar (lowerN n) = true := by
  simp only [isSchemeChar, decide_eq_true_eq] at h ⊢
  simp only [lowerN]
  split_ifs <;> omega

theorem lowerN_isHostBase {n : Nat} (h : isHostBase n = true) :
    isHostBase (lowerN n) = true := by
  simp only [isHostBase, decide_eq_true_eq] at h ⊢
  simp only [lowerN]
  split_ifs <;> omega

theorem lowerN_eq_58_iff {n : Nat} : lowerN n = 58 ↔ n = 58 := by
  simp only [lowerN]
  split_ifs <;> omega

theorem lowerN_of_isDigitN {n : Nat} (h : isDigitN n = true) : lowerN n = n := by
  simp only [isDigitN, decide_eq_true_eq] at h
  simp only [lowerN]
  split_ifs <;> omega

theorem lowerStr_of_digits {l : List Nat} (h : l.all isDigitN = true) : lowerStr l = l := by
  induction l with
  | nil => rfl
  | cons a t ih =>
    simp only [List.all_cons, Bool.and_eq_true] at h
    simp only [lowerStr, List.map_cons, List.cons.injEq]
    refine ⟨lowerN_of_isDigitN h.1, ?_⟩
    simpa [lowerStr] using ih h.2

theorem checkScheme_lower {l : List Nat} (h : checkScheme l = true) :
    checkScheme (lowerStr l) = true := by
  cases l with
  | nil => cases h
  | cons a t =>
    simp only [checkScheme, Bool.and_eq_true, List.all_eq_true] at h
    simp only [lowerStr, List.map_cons, checkScheme, Bool.and_eq_true, List.all_eq_true]
    refine ⟨lowerN_isAlphaN h.1, ?_⟩
    intro c hc
    rcases List.mem_map.mp hc with ⟨b, hb, rfl⟩
    exact lowerN_isSchemeChar (h.2 b hb)

theorem checkHostTail_lower {l : List Nat} (h : checkHostTail l = true) :
    checkHostTail (lowerStr l) = true := by
  induction l with
  | nil => rfl
  | cons a t ih =>
    simp only [checkHostTail] at h
    by_cases ha : a = 58
    · subst ha
      rw [if_pos (by decide)] at h
      simp only [lowerStr, List.map_cons, show lowerN 58 = 58 by decide, checkHostTail,
        if_pos (show ((58:Nat) == 58) = true by decide)]
      have hmap : List.map lowerN t = t := lowerStr_of_digits h
      rw [hmap]
      exact h
    · rw [if_neg (by simpa using ha)] at h
      simp only [Bool.and_eq_true] at h
      simp only [lowerStr, List.map_cons, checkHostTail]
      rw [if_neg (by simp [lowerN_eq_58_iff, ha])]
      simp only [Bool.and_eq_true]
      exact ⟨lowerN_isHostBase h.1, by simpa [lowerStr] using ih h.2⟩

theorem checkHost_lower {l : List Nat} (h : checkHost l = true) :
    checkHost (lowerStr l) = true := by
  cases l with
  | nil => cases h
  | cons a t =>
    simp only [checkHost, Bool.and_eq_true] at h
    simp only [lowerStr, List.map_cons, checkHost, Bool.and_eq_true]
    exact ⟨lowerN_isHostBase h.1, by simpa [lowerStr] using checkHostTail_lower h.2⟩

/-! ## Lemmas: stripping a default port from a valid host -/

theorem checkHostTail_append_port {x ds : List Nat}
    (h : checkHostTail (x ++ 58 :: ds) = true) : x.all isHostBase = true := by
  induction x with
  | nil => rfl
  | cons c t ih =>
    simp only [List.cons_append, checkHostTail] at h
    by_cases hc : c = 58
    · subst hc
      rw [if_pos (by decide)] at h
      have h58 : isDigitN 58 = true :=
        List.all_eq_true.mp h 58 (by simp)
      exact absurd h58 (by decide)
    · rw [if_neg (by simpa using hc)] at h
      simp only [Bool.and_eq_true] at h
      simp only [List.all_cons, Bool.and_eq_true]
      exact ⟨h.1, ih h.2⟩

theorem checkHost_append_port {x q : List Nat}
    (h : checkHost (x ++ 58 :: q) = true) : x ≠ [] ∧ x.all isHostBase = true := by
  cases x with
  | nil =>
    simp only [List.nil_append, checkHost, Bool.and_eq_true] at h
    exact absurd h.1 (by decide)
  | cons a t =>
    simp only [List.cons_append, checkHost, Bool.and_eq_true] at h
    refine ⟨by simp, ?_⟩
    simp only [List.all_cons, Bool.and_eq_true]
    exact ⟨h.1, checkHostTail_append_port h.2⟩

theorem checkHostTail_of_all_base {t : List Nat} (hall : t.all isHostBase = true) :
    checkHostTail t = true := by
  induction t with
  | nil => rfl
  | cons c r ih =>
    simp only [List.all_cons, Bool.and_eq_true] at hall
    simp only [checkHostTail]
    rw [if_neg]
    · simp only [Bool.and_eq_true]
      exact ⟨hall.1, ih hall.2⟩
    · intro hC
      exact (isHostBase_bounds hall.1).2.1 (by simpa using hC)

theorem checkHost_of_all_base {x : List Nat} (hne : x ≠ []) (hall : x.all isHostBase = true) :
    checkHost x = true := by
  cases x with
  | nil => exact absurd rfl hne
  | cons a t =>
    simp only [List.all_cons, Bool.and_eq_true] at hall
    simp only [checkHost, Bool.and_eq_true]
    exact ⟨hall.1, checkHostTail_of_all_base hall.2⟩

theorem not_58_mem_of_all_base {x : List Nat} (hall : x.all isHostBase = true) :
    (58:Nat) ∉ x := by
  intro hm
  exact absurd (List.all_eq_true.mp hall 58 hm) (by decide)

theorem checkHost_trim_port {h ds : List Nat} (hh : checkHost h = true)
    (hsuf : hasSuffixB h (58 :: ds) = true) :
    checkHost (trimSuffixN h (58 :: ds)) = true ∧ (58:Nat) ∉ trimSuffixN h (58 :: ds) := by
  have hconj := hsuf
  unfold hasSuffixB at hconj
  simp only [Bool.and_eq_true, decide_eq_true_eq] at hconj
  have hdecomp : h = h.take (h.length - (58 :: ds).length) ++ 58 :: ds := by
    conv_lhs => rw [← List.take_append_drop (h.length - (58 :: ds).length) h]
    rw [hconj.2]
  have htrim : trimSuffixN h (58 :: ds) = h.take (h.length - (58 :: ds).length) := by
    unfold trimSuffixN
    rw [if_pos hsuf]
  obtain ⟨hne, hall⟩ := checkHost_append_port (hdecomp ▸ hh)
  rw [htrim]
  exact ⟨checkHost_of_all_base hne hall, not_58_mem_of_all_base hall⟩

/-! ## Lemmas: the parsing stages on well-formed inputs -/

theorem cutFragment_of_not_mem {cs : List Nat} (h : (35:Nat) ∉ cs) : cutFragment cs = (cs, []) := by
  simp [cutFragment, splitAtFirst_eq_none h]

theorem cutQuery_no63 {r : List Nat} (h : (63:Nat) ∉ r) : cutQuery r = (r, [], false) := by
  unfold cutQuery
  rw [endsWithN_eq_false h]
  simp [splitAtFirst_eq_none h]

theorem cutQuery_force {core : List Nat} (h : (63:Nat) ∉ core) :
    cutQuery (core ++ [63]) = (core, [], true) := by
  have hcond : (endsWithN 63 (core ++ [63]) && countOcc 63 (core ++ [63]) == 1) = true := by
    rw [endsWithN_concat, countOcc_append, countOcc_eq_zero h]
    decide
  unfold cutQuery
  rw [if_pos hcond, List.dropLast_concat]

theorem cutQuery_split {core q : List Nat} (hc : (63:Nat) ∉ core) (hq : q ≠ []) :
    cutQuery (core ++ 63 :: q) = (core, q, false) := by
  have hcond : (endsWithN 63 (core ++ 63 :: q) && countOcc 63 (core ++ 63 :: q) == 1) = false := by
    by_cases hm : (63:Nat) ∈ q
    · have hpos : 0 < countOcc 63 q := by
        rw [countOcc_eq_count]
        exact List.count_pos_iff.mpr hm
      have hco : countOcc 63 (core ++ 63 :: q) = 1 + countOcc 63 q := by
        rw [countOcc_append, countOcc_eq_zero hc, countOcc_eq_count, countOcc_eq_count,
          List.count_cons_self]
        omega
      have : (countOcc 63 (core ++ 63 :: q) == 1) = false := by
        rw [hco]
        simp only [beq_eq_false_iff_ne, ne_eq]
        omega
      rw [this, Bool.and_false]
    · have hlast : (core ++ 63 :: q).getLast? = q.getLast? := by
        rw [List.getLast?_append_of_ne_nil _ (by simp)]
        rw [show (63 :: q : List Nat) = [63] ++ q from rfl,
          List.getLast?_append_of_ne_nil _ hq]
      have hml : endsWithN 63 (core ++ 63 :: q) = false := by
        have := endsWithN_eq_false (d := 63) hm
        unfold endsWithN at this ⊢
        rw [hlast]
        exact this
      rw [hml, Bool.false_and]
  unfold cutQuery
  rw [if_neg (by simp [hcond]), splitAtFirst_append q hc]

theorem cutQuery_force_imp (r : List Nat) :
    (cutQuery r).2.2 = true → (cutQuery r).2.1 = [] := by
  unfold cutQuery
  by_cases hcnd : (endsWithN 63 r && countOcc 63 r == 1) = true
  · rw [if_pos hcnd]
    intro _
    rfl
  · rw [if_neg hcnd]
    rcases hsp : splitAtFirst 63 r with _ | ⟨a, b⟩ <;> intro hf <;> simp at hf

theorem cutAuthority_no47 {h : List Nat} (hn : (47:Nat) ∉ h) : cutAuthority h = (h, []) := by
  simp [cutAuthority, splitAtFirst_eq_none hn]

theorem cutAuthority_split {h : List Nat} (p : List Nat) (hn : (47:Nat) ∉ h) :
    cutAuthority (h ++ 47 :: p) = (h, 47 :: p) := by
  simp [cutAuthority, splitAtFirst_append p hn]

/-! ## Validity of parsed URLs and the parse/render round trip -/

theorem parseBytes_valid {cs : List Nat} {u : URL} (h : parseBytes cs = some u) :
    ValidURL u := by
  unfold parseBytes at h
  rcases hsp : splitAtFirst 58 (cutFragment cs).1 with _ | ⟨schemeRaw, rest1⟩ <;>
    rw [hsp] at h <;> dsimp only at h
  · cases h
  · by_cases hcs : checkScheme schemeRaw = true
    · rw [if_pos hcs] at h
      by_cases hpre : ((cutQuery rest1).1.take 2 = ([47, 47] : List Nat))
      · rw [if_pos hpre] at h
        by_cases hchecks : (checkHost (cutAuthority ((cutQuery rest1).1.drop 2)).1 &&
            checkPath (cutAuthority ((cutQuery rest1).1.drop 2)).2 &&
            (cutQuery rest1).2.1.all isQueryChar) = true
        · rw [if_pos hchecks] at h
          simp only [Bool.and_eq_true] at hchecks
          cases h
          refine ⟨checkScheme_lower hcs, lowerStr_idem schemeRaw, hchecks.1.1, hchecks.1.2,
            hchecks.2, ?_⟩
          exact cutQuery_force_imp rest1
        · rw [if_neg hchecks] at h
          cases h
      · rw [if_neg hpre] at h
        cases h
    · rw [if_neg hcs] at h
      cases h

theorem not_mem_render {S H P tail : List Nat} (c : Nat)
    (hS : c ∉ S) (hne58 : c ≠ 58) (hne47 : c ≠ 47) (hH : c ∉ H) (hP : c ∉ P)
    (htail : c ∉ tail) :
    c ∉ S ++ 58 :: ((47 :: 47 :: (H ++ P)) ++ tail) := by
  intro hm
  rcases List.mem_append.mp hm with hm | hm
  · exact hS hm
  rcases List.mem_cons.mp hm with hm | hm
  · exact hne58 hm
  rcases List.mem_append.mp hm with hm | hm
  · rcases List.mem_cons.mp hm with hm | hm
    · exact hne47 hm
    rcases List.mem_cons.mp hm with hm | hm
    · exact hne47 hm
    rcases List.mem_append.mp hm with hm | hm
    · exact hH hm
    · exact hP hm
  · exact htail hm

theorem parseBytes_of_cutQuery {S H P Q rest1 : List Nat} {b : Bool}
    (hs : checkScheme S = true) (hsl : lowerStr S = S)
    (hh : checkHost H = true) (hpp : checkPath P = true)
    (hqq : Q.all isQueryChar = true)
    (h35 : (35:Nat) ∉ S ++ 58 :: rest1)
    (h58 : (58:Nat) ∉ S)
    (h47 : (47:Nat) ∉ H)
    (hcut : cutQuery rest1 = (47 :: 47 :: (H ++ P), Q, b)) :
    parseBytes (S ++ 58 :: rest1) =
      some { scheme := S, host := H, path := P, rawQuery := Q, forceQuery := b,
             fragment := [] } := by
  unfold parseBytes
  rw [cutFragment_of_not_mem h35]
  dsimp only
  rw [splitAtFirst_append rest1 h58]
  dsimp only
  rw [if_pos hs, hcut]
  dsimp only
  rw [if_pos (show List.take 2 (47 :: 47 :: (H ++ P)) = [47, 47] from rfl)]
  by_cases hpe : P = []
  · subst hpe
    rw [show List.drop 2 (47 :: 47 :: (H ++ ([] : List Nat))) = H from by simp]
    rw [cutAuthority_no47 h47]
    dsimp only
    rw [if_pos (by simp only [Bool.and_eq_true]; exact ⟨⟨hh, rfl⟩, hqq⟩)]
    rw [hsl]
  · obtain ⟨t, rfl⟩ : ∃ t, P = 47 :: t := by
      cases P with
      | nil => exact absurd rfl hpe
      | cons c t =>
        have hc : c = 47 := by
          simp only [checkPath, List.isEmpty_cons, Bool.false_or, Bool.and_eq_true,
            List.headD, beq_iff_eq] at hpp
          exact hpp.1
        exact ⟨t, by rw [hc]⟩
    rw [show List.drop 2 (47 :: 47 :: (H ++ 47 :: t)) = H ++ 47 :: t from rfl]
    rw [cutAuthority_split t h47]
    dsimp only
    rw [if_pos (by simp only [Bool.and_eq_true]; exact ⟨⟨hh, hpp⟩, hqq⟩)]
    rw [hsl]

theorem parseBytes_urlBytes {u : URL} (hv : ValidURL u) (hf : u.fragment = []) :
    parseBytes (urlBytes u) = some u := by
  obtain ⟨S, H, P, Q, b, F⟩ := u
  obtain ⟨hs, hsl, hh, hpp, hqq, hfq⟩ := hv
  dsimp only at hs hsl hh hpp hqq hfq hf ⊢
  subst hf
  have h58 : (58:Nat) ∉ S := fun hc => (isSchemeChar_bounds (checkScheme_mem hs hc)).2.1 rfl
  have h35S : (35:Nat) ∉ S := fun hc => (isSchemeChar_bounds (checkScheme_mem hs hc)).1 rfl
  have h47 : (47:Nat) ∉ H := fun hc => (checkHost_bounds hh hc).2.2.1 rfl
  have h35H : (35:Nat) ∉ H := fun hc => (checkHost_bounds hh hc).1 rfl
  have h63H : (63:Nat) ∉ H := fun hc => (checkHost_bounds hh hc).2.1 rfl
  have h35P : (35:Nat) ∉ P := fun hc => (isPathChar_bounds (checkPath_mem hpp hc)).1 rfl
  have h63P : (63:Nat) ∉ P := fun hc => (isPathChar_bounds (checkPath_mem hpp hc)).2.1 rfl
  have h35Q : (35:Nat) ∉ Q := fun hc =>
    (isQueryChar_bounds (List.all_eq_true.mp hqq _ hc)).1 rfl
  have hcore63 : (63:Nat) ∉ (47 :: 47 :: (H ++ P) : List Nat) := by
    simp only [List.mem_cons, List.mem_append, not_or]
    exact ⟨by omega, by omega, h63H, h63P⟩
  by_cases hb : b = true
  · have hqe : Q = [] := hfq hb
    subst hqe
    subst hb
    have hshape : urlBytes ⟨S, H, P, [], true, []⟩ =
        S ++ 58 :: ((47 :: 47 :: (H ++ P)) ++ [63]) := by
      unfold urlBytes
      simp
    rw [hshape]
    have h35 : (35:Nat) ∉ S ++ 58 :: ((47 :: 47 :: (H ++ P)) ++ [63]) :=
      not_mem_render 35 h35S (by omega) (by omega) h35H h35P (by decide)
    exact parseBytes_of_cutQuery hs hsl hh hpp rfl h35 h58 h47 (cutQuery_force hcore63)
  · have hbf : b = false := by
      cases b
      · rfl
      · exact absurd rfl hb
    subst hbf
    by_cases hqe : Q = []
    · subst hqe
      have hshape : urlBytes ⟨S, H, P, [], false, []⟩ =
          S ++ 58 :: ((47 :: 47 :: (H ++ P)) ++ []) := by
        unfold urlBytes
        simp
      rw [hshape]
      have h35 : (35:Nat) ∉ S ++ 58 :: ((47 :: 47 :: (H ++ P)) ++ []) :=
        not_mem_render 35 h35S (by omega) (by omega) h35H h35P (by decide)
      refine parseBytes_of_cutQuery hs hsl hh hpp rfl h35 h58 h47 ?_
      rw [List.append_nil]
      exact cutQuery_no63 hcore63
    · have hshape : urlBytes ⟨S, H, P, Q, false, []⟩ =
          S ++ 58 :: ((47 :: 47 :: (H ++ P)) ++ 63 :: Q) := by
        unfold urlBytes
        simp [hqe]
      rw [hshape]
      have htail35 : (35:Nat) ∉ (63 :: Q : List Nat) := by
        intro hm
        rcases List.mem_cons.mp hm with hm | hm
        · exact absurd hm (by decide)
        · exact h35Q hm
      have h35 : (35:Nat) ∉ S ++ 58 :: ((47 :: 47 :: (H ++ P)) ++ 63 :: Q) :=
        not_mem_render 35 h35S (by omega) (by omega) h35H h35P htail35
      exact parseBytes_of_cutQuery hs hsl hh hpp hqq h35 h58 h47
        (cutQuery_split hcore63 hqe)

/-! ## Lemmas: the normalisation transformations -/

theorem checkPath_dropLast {p : List Nat} (hp : checkPath p = true) (hlen : 1 < p.length) :
    checkPath p.dropLast = true := by
  cases p with
  | nil => simp at hlen
  | cons c t =>
    cases t with
    | nil => simp at hlen
    | cons d r =>
      simp only [checkPath, List.isEmpty_cons, Bool.false_or, Bool.and_eq_true,
        List.all_eq_true, List.headD, beq_iff_eq] at hp
      have hdl : (c :: d :: r).dropLast = c :: (d :: r).dropLast := rfl
      rw [hdl]
      simp only [checkPath, List.isEmpty_cons, Bool.false_or, Bool.and_eq_true,
        List.all_eq_true, List.headD, beq_iff_eq]
      refine ⟨hp.1, ?_⟩
      intro x hx
      rcases List.mem_cons.mp hx with rfl | hx
      · exact hp.2 x (List.mem_cons_self x _)
      · exact hp.2 x (List.mem_cons_of_mem c ((List.dropLast_sublist (d :: r)).subset hx))

theorem and_true_left {a b : Bool} (h : (a && b) = true) : a = true := by
  simp only [Bool.and_eq_true] at h
  exact h.1

theorem normPath_check {p : List Nat} (hp : checkPath p = true) :
    checkPath (normPath p) = true := by
  unfold normPath
  by_cases c : (decide (1 < p.length) && endsWithN 47 p) = true
  · rw [if_pos c]
    simp only [Bool.and_eq_true, decide_eq_true_eq] at c
    exact checkPath_dropLast hp c.1
  · rw [if_neg c]
    exact hp

theorem eq_dropLast_concat_of_endsWith {p : List Nat} {d : Nat}
    (h : endsWithN d p = true) : p = p.dropLast ++ [d] := by
  unfold endsWithN at h
  have hsome : p.getLast? = some d := by simpa using h
  exact (List.dropLast_append_getLast? d (Option.mem_def.mpr hsome)).symm

theorem normPath_stable {p : List Nat}
    (hnp : ¬(hasSuffixB p [47, 47] = true ∧ 3 ≤ p.length)) :
    normPath (normPath p) = normPath p := by
  unfold normPath
  by_cases c : (decide (1 < p.length) && endsWithN 47 p) = true
  · rw [if_pos c, if_neg]
    intro hc
    simp only [Bool.and_eq_true, decide_eq_true_eq] at hc c
    have hp1 : p = p.dropLast ++ [47] := eq_dropLast_concat_of_endsWith c.2
    have hp2 : p.dropLast = p.dropLast.dropLast ++ [47] :=
      eq_dropLast_concat_of_endsWith hc.2
    apply hnp
    constructor
    · conv_lhs => rw [hp1, hp2]
      rw [List.append_assoc]
      exact hasSuffixB_concat_self _ _
    · have hlen : p.dropLast.length = p.length - 1 := List.length_dropLast p
      omega
  · rw [if_neg c, if_neg c]

theorem normHost_check {scheme h : List Nat} (hh : checkHost h = true) :
    checkHost (normHost scheme h) = true := by
  unfold normHost
  by_cases c1 : (hasSuffixB h [58, 56, 48] && scheme == [104, 116, 116, 112]) = true
  · rw [if_pos c1]
    exact (checkHost_trim_port hh (and_true_left c1)).1
  · rw [if_neg c1]
    by_cases c2 : (hasSuffixB h [58, 52, 52, 51] && scheme == [104, 116, 116, 112, 115]) = true
    · rw [if_pos c2]
      exact (checkHost_trim_port hh (and_true_left c2)).1
    · rw [if_neg c2]
      exact hh

theorem normHost_lower_fixed {h : List Nat} (scheme : List Nat) (hfix : lowerStr h = h) :
    lowerStr (normHost scheme h) = normHost scheme h := by
  unfold normHost trimSuffixN
  split_ifs with c1 c2 c3 c4 <;>
    simp only [lowerStr, List.map_take] at hfix ⊢ <;> rw [hfix]

theorem normHost_stable {scheme h : List Nat} (hh : checkHost h = true) :
    normHost scheme (normHost scheme h) = normHost scheme h := by
  by_cases c1 : (hasSuffixB h [58, 56, 48] && scheme == [104, 116, 116, 112]) = true
  · have hx := checkHost_trim_port hh (and_true_left c1)
    have e1 : normHost scheme h = trimSuffixN h [58, 56, 48] := by
      unfold normHost
      rw [if_pos c1]
    rw [e1]
    unfold normHost
    rw [if_neg, if_neg]
    · simp [hasSuffixB_eq_false_of_not_mem (show (58:Nat) ∈ [58, 52, 52, 51] by decide) hx.2]
    · simp [hasSuffixB_eq_false_of_not_mem (show (58:Nat) ∈ [58, 56, 48] by decide) hx.2]
  · by_cases c2 : (hasSuffixB h [58, 52, 52, 51] && scheme == [104, 116, 116, 112, 115]) = true
    · have hx := checkHost_trim_port hh (and_true_left c2)
      have e1 : normHost scheme h = trimSuffixN h [58, 52, 52, 51] := by
        unfold normHost
        rw [if_neg c1, if_pos c2]
      rw [e1]
      unfold normHost
      rw [if_neg, if_neg]
      · simp [hasSuffixB_eq_false_of_not_mem (show (58:Nat) ∈ [58, 52, 52, 51] by decide) hx.2]
      · simp [hasSuffixB_eq_false_of_not_mem (show (58:Nat) ∈ [58, 56, 48] by decide) hx.2]
    · have e1 : normHost scheme h = h := by
        unfold normHost
        rw [if_neg c1, if_neg c2]
      rw [e1]
      unfold normHost
      rw [if_neg c1, if_neg c2]

theorem normalizeParsed_valid {u : URL} (hv : ValidURL u) :
    ValidURL (normalizeParsed u) := by
  obtain ⟨hs, hsl, hh, hpp, hqq, hfq⟩ := hv
  refine ⟨checkScheme_lower hs, lowerStr_idem _, ?_, normPath_check hpp, hqq, hfq⟩
  exact normHost_check (checkHost_lower hh)

theorem normalizeParsed_fix {u : URL} (hv : ValidURL u)
    (hnp : ¬(hasSuffixB u.path [47, 47] = true ∧ 3 ≤ u.path.length)) :
    normalizeParsed (normalizeParsed u) = normalizeParsed u := by
  obtain ⟨hs, hsl, hh, hpp, hqq, hfq⟩ := hv
  have hls : lowerStr (lowerStr u.scheme) = lowerStr u.scheme := lowerStr_idem _
  have hlh : lowerStr (normHost (lowerStr u.scheme) (lowerStr u.host)) =
      normHost (lowerStr u.scheme) (lowerStr u.host) :=
    normHost_lower_fixed _ (lowerStr_idem _)
  unfold normalizeParsed
  rw [hls, hlh, normHost_stable (checkHost_lower hh), normPath_stable hnp]

/-! ## Idempotence of the normaliser on its domain -/

theorem urlBytes_lt {v : URL} (hv : ValidURL v) (hf : v.fragment = []) :
    ∀ n ∈ urlBytes v, n < 55296 := by
  obtain ⟨S, H, P, Q, b, F⟩ := v
  obtain ⟨hs, hsl, hh, hpp, hqq, hfq⟩ := hv
  dsimp only at hs hsl hh hpp hqq hfq hf
  subst hf
  intro n hn
  unfold urlBytes at hn
  dsimp only at hn
  rcases List.mem_append.mp hn with hn | hn
  · rcases List.mem_append.mp hn with hn | hn
    · rcases List.mem_append.mp hn with hn | hn
      · rcases List.mem_append.mp hn with hn | hn
        · exact (isSchemeChar_bounds (checkScheme_mem hs hn)).2.2.2.2
        · rcases List.mem_cons.mp hn with rfl | hn
          · omega
          rcases List.mem_cons.mp hn with rfl | hn
          · omega
          rcases List.mem_cons.mp hn with rfl | hn
          · omega
          exact (checkHost_bounds hh hn).2.2.2
      · exact (isPathChar_bounds (checkPath_mem hpp hn)).2.2
    · by_cases hc : (b || !Q.isEmpty) = true
      · rw [if_pos hc] at hn
        rcases List.mem_cons.mp hn with rfl | hn
        · omega
        · exact (isQueryChar_bounds (List.all_eq_true.mp hqq _ hn)).2
      · rw [if_neg hc] at hn
        cases hn
  · simp at hn

theorem parseURL_urlString {v : URL} (hv : ValidURL v) (hf : v.fragment = []) :
    parseURL (urlString v) = some v := by
  unfold parseURL urlString
  rw [data_map_roundtrip (urlBytes_lt hv hf)]
  exact parseBytes_urlBytes hv hf

theorem NormalizeURL_eq_of_parse {s : String} {u : URL} (hp : parseURL s = some u) :
    NormalizeURL s = some (urlString (normalizeParsed u)) := by
  unfold NormalizeURL
  rw [hp]
  rfl

/-- C8 (amended) — `NormalizeURL` is idempotent on every successfully
parsed input whose path does not end in a double slash of length ≥ 3:
normalising the normalised output returns it unchanged.  (The original
claim fails on such paths because the normaliser strips only one trailing
slash per pass — see the counterexample theorem.) -/
theorem NormalizeURL_idem_of_parse {s t : String} {u : URL}
    (hp : parseURL s = some u)
    (hnp : ¬(hasSuffixB u.path [47, 47] = true ∧ 3 ≤ u.path.length))
    (ht : NormalizeURL s = some t) :
    NormalizeURL t = some t := by
  have hvu : ValidURL u := parseBytes_valid hp
  have htv : t = urlString (normalizeParsed u) := by
    rw [NormalizeURL_eq_of_parse hp] at ht
    exact (Option.some.injEq _ _ ▸ ht).symm
  have hvv : ValidURL (normalizeParsed u) := normalizeParsed_valid hvu
  have hfrag : (normalizeParsed u).fragment = [] := rfl
  have hpt : parseURL t = some (normalizeParsed u) := by
    rw [htv]
    exact parseURL_urlString hvv hfrag
  rw [NormalizeURL_eq_of_parse hpt, normalizeParsed_fix hvu hnp, ← htv]

/-! ## The differ-only-by relation of the equivalence law -/

theorem normPath_concat_slash {p : List Nat} (hp : p ≠ []) :
    normPath (p ++ [47]) = p := by
  unfold normPath
  rw [if_pos, List.dropLast_concat]
  have hl : 0 < p.length := List.length_pos.mpr hp
  simp only [endsWithN_concat, Bool.and_true, decide_eq_true_eq, List.length_append,
    List.length_singleton]
  omega

theorem normPath_eq_of_strict {p1 p2 : List Nat}
    (h : pathsDifferOnlyStrict p1 p2 = true) : normPath p1 = normPath p2 := by
  unfold pathsDifferOnlyStrict at h
  simp only [Bool.or_eq_true, Bool.and_eq_true, beq_iff_eq, Bool.not_eq_true',
    beq_eq_false_iff_ne, ne_eq] at h
  rcases h with (h | ⟨⟨h1, h2⟩, h3⟩) | ⟨⟨h1, h2⟩, h3⟩
  · rw [h]
  · subst h1
    rw [normPath_concat_slash h2]
    unfold normPath
    rw [if_neg]
    simp [h3]
  · subst h1
    rw [normPath_concat_slash h2]
    unfold normPath
    rw [if_neg]
    simp [h3]

theorem normHost_of_all_base {scheme x : List Nat} (hall : x.all isHostBase = true) :
    normHost scheme x = x := by
  have h58 := not_58_mem_of_all_base hall
  unfold normHost
  rw [if_neg, if_neg]
  · simp [hasSuffixB_eq_false_of_not_mem (show (58:Nat) ∈ [58, 52, 52, 51] by decide) h58]
  · simp [hasSuffixB_eq_false_of_not_mem (show (58:Nat) ∈ [58, 56, 48] by decide) h58]

theorem normHost_http_port (x : List Nat) :
    normHost [104, 116, 116, 112] (x ++ [58, 56, 48]) = x := by
  unfold normHost
  rw [if_pos]
  · exact trimSuffixN_concat_self x _
  · simp [hasSuffixB_concat_self]

theorem normHost_https_port (x : List Nat) :
    normHost [104, 116, 116, 112, 115] (x ++ [58, 52, 52, 51]) = x := by
  unfold normHost
  rw [if_neg, if_pos]
  · exact trimSuffixN_concat_self x _
  · simp [hasSuffixB_concat_self]
  · simp

theorem normHost_eq_of_rel {scheme h1 h2 : List Nat}
    (hh1 : checkHost h1 = true) (hh2 : checkHost h2 = true)
    (hrel : hostsDifferOnly scheme h1 h2 = true) :
    normHost scheme (lowerStr h1) = normHost scheme (lowerStr h2) := by
  unfold hostsDifferOnly at hrel
  rcases hps : defaultPort scheme with _ | port <;> rw [hps] at hrel
  · simp only [Bool.or_false, beq_iff_eq] at hrel
    rw [hrel]
  · simp only [Bool.or_eq_true, beq_iff_eq] at hrel
    unfold defaultPort at hps
    split_ifs at hps with e1 e2
    · obtain rfl : port = [58, 56, 48] := (Option.some.injEq _ _ ▸ hps).symm
      subst e1
      rcases hrel with hrel | hrel | hrel
      · rw [hrel]
      · rw [hrel, normHost_http_port]
        have hl1 : checkHost (lowerStr h1) = true := checkHost_lower hh1
        rw [hrel] at hl1
        obtain ⟨hne, hall⟩ := checkHost_append_port (q := [56, 48]) hl1
        exact (normHost_of_all_base hall).symm
      · rw [hrel, normHost_http_port]
        have hl2 : checkHost (lowerStr h2) = true := checkHost_lower hh2
        rw [hrel] at hl2
        obtain ⟨hne, hall⟩ := checkHost_append_port (q := [56, 48]) hl2
        exact normHost_of_all_base hall
    · obtain rfl : port = [58, 52, 52, 51] := (Option.some.injEq _ _ ▸ hps).symm
      subst e2
      rcases hrel with hrel | hrel | hrel
      · rw [hrel]
      · rw [hrel, normHost_https_port]
        have hl1 : checkHost (lowerStr h1) = true := checkHost_lower hh1
        rw [hrel] at hl1
        obtain ⟨hne, hall⟩ := checkHost_append_port (q := [52, 52, 51]) hl1
        exact (normHost_of_all_base hall).symm
      · rw [hrel, normHost_https_port]
        have hl2 : checkHost (lowerStr h2) = true := checkHost_lower hh2
        rw [hrel] at hl2
        obtain ⟨hne, hall⟩ := checkHost_append_port (q := [52, 52, 51]) hl2
        exact normHost_of_all_base hall

theorem normalizeParsed_eq_of_amended {a b : URL}
    (hva : ValidURL a) (hvb : ValidURL b)
    (hrel : differOnlyByAmended a b = true) :
    normalizeParsed a = normalizeParsed b := by
  unfold differOnlyByAmended at hrel
  simp only [Bool.and_eq_true] at hrel
  obtain ⟨⟨⟨⟨hsch, hhost⟩, hpath⟩, hq⟩, hforce⟩ := hrel
  have hsch : lowerStr a.scheme = lowerStr b.scheme := by simpa using hsch
  have hq : a.rawQuery = b.rawQuery := by simpa using hq
  have hforce : a.forceQuery = b.forceQuery := by simpa using hforce
  rw [hsch] at hhost
  have hhosteq : normHost (lowerStr b.scheme) (lowerStr a.host) =
      normHost (lowerStr b.scheme) (lowerStr b.host) :=
    normHost_eq_of_rel hva.2.2.1 hvb.2.2.1 hhost
  unfold normalizeParsed
  rw [hsch, hq, hforce, hhosteq, normPath_eq_of_strict hpath]

/-! ## Lemmas: the hash strategy -/

theorem find?_append_none {α : Type} {p : α → Bool} {l1 : List α} (l2 : List α)
    (h : l1.find? p = none) : (l1 ++ l2).find? p = l2.find? p := by
  induction l1 with
  | nil => rfl
  | cons a t ih =>
    rw [List.find?_cons] at h
    rcases hpa : p a with _ | _ <;> rw [hpa] at h
    · simp only [List.cons_append, List.find?_cons, hpa]
      exact ih h
    · cases h

theorem getByHash_save_found {repo : Repo} {hash : String} {r : ShortURL}
    (hmiss : Repo.getByHash repo hash = none) (hr : r.urlHash = hash) :
    Repo.getByHash (repo ++ [r]) hash = some r := by
  unfold Repo.getByHash at hmiss ⊢
  rw [find?_append_none _ hmiss]
  simp [List.find?_cons, hr]

/-- C1 — `HashStrategy.Shorten` deduplicates: a hash hit returns the
existing record with the repository untouched; a miss persists exactly one
new record carrying the computed hash and the fresh code; two successive
shortenings of the same URL against the same repository return records with
equal code. -/
theorem hashStrategy_shorten_dedup :
    (∀ (gen : String) (now : Int) (u nu : String) (repo : Repo) (r : ShortURL),
      NormalizeURL u = some nu →
      Repo.getByHash repo (HashURL nu) = some r →
      HashStrategy.Shorten gen now u repo = Except.ok (r, repo)) ∧
    (∀ (gen : String) (now : Int) (u nu : String) (repo : Repo),
      NormalizeURL u = some nu →
      Repo.getByHash repo (HashURL nu) = none →
      HashStrategy.Shorten gen now u repo =
        Except.ok (⟨gen, u, HashURL nu, now⟩, repo ++ [⟨gen, u, HashURL nu, now⟩])) ∧
    (∀ (g1 g2 : String) (n1 n2 : Int) (u : String) (repo repo1 repo2 : Repo)
        (r1 r2 : ShortURL),
      HashStrategy.Shorten g1 n1 u repo = Except.ok (r1, repo1) →
      HashStrategy.Shorten g2 n2 u repo1 = Except.ok (r2, repo2) →
      r2.code = r1.code) := by
  refine ⟨?_, ?_, ?_⟩
  · intro gen now u nu repo r hnu hhit
    unfold HashStrategy.Shorten
    rw [hnu]
    dsimp only
    rw [hhit]
  · intro gen now u nu repo hnu hmiss
    unfold HashStrategy.Shorten
    rw [hnu]
    dsimp only
    rw [hmiss]
    rfl
  · intro g1 g2 n1 n2 u repo repo1 repo2 r1 r2 h1 h2
    unfold HashStrategy.Shorten at h1 h2
    rcases hnu : NormalizeURL u with _ | nu <;> rw [hnu] at h1 h2
    · cases h1
    dsimp only at h1 h2
    rcases hg : Repo.getByHash repo (HashURL nu) with _ | ex <;> rw [hg] at h1
    · simp only [Except.ok.injEq, Prod.mk.injEq] at h1
      obtain ⟨hr1, hrepo1⟩ := h1
      have hfound : Repo.getByHash repo1 (HashURL nu) =
          some ⟨g1, u, HashURL nu, n1⟩ := by
        rw [← hrepo1]
        exact getByHash_save_found hg rfl
      rw [hfound] at h2
      simp only [Except.ok.injEq, Prod.mk.injEq] at h2
      rw [← h2.1, ← hr1]
    · simp only [Except.ok.injEq, Prod.mk.injEq] at h1
      obtain ⟨hr1, hrepo1⟩ := h1
      rw [← hrepo1, hg] at h2
      simp only [Except.ok.injEq, Prod.mk.injEq] at h2
      rw [← h2.1, ← hr1]

/-- Witness for C1 at concrete inputs. -/
theorem hashStrategy_shorten_dedup_witness :
    (HashStrategy.Shorten "c9" 7 "https://example.com/path"
        [⟨"cA", "https://example.com/path", HashURL "https://example.com/path", 5⟩] =
      Except.ok (⟨"cA", "https://example.com/path", HashURL "https://example.com/path", 5⟩,
        [⟨"cA", "https://example.com/path", HashURL "https://example.com/path", 5⟩])) ∧
    (HashStrategy.Shorten "c1" 0 "https://example.com/path" [] =
      Except.ok (⟨"c1", "https://example.com/path", HashURL "https://example.com/path", 0⟩,
        [⟨"c1", "https://example.com/path", HashURL "https://example.com/path", 0⟩])) ∧
    (⟨"c1", "https://example.com/path", HashURL "https://example.com/path", 0⟩ :
        ShortURL).code =
      (⟨"c1", "https://example.com/path", HashURL "https://example.com/path", 0⟩ :
        ShortURL).code := by
  refine ⟨?_, ?_, ?_⟩
  · exact hashStrategy_shorten_dedup.1 "c9" 7 "https://example.com/path"
      "https://example.com/path" _ _ (by decide) (by decide)
  · exact hashStrategy_shorten_dedup.2.1 "c1" 0 "https://example.com/path"
      "https://example.com/path" [] (by decide) rfl
  · exact hashStrategy_shorten_dedup.2.2 "c1" "c2" 0 1 "https://example.com/path"
      []
      [⟨"c1", "https://example.com/path", HashURL "https://example.com/path", 0⟩]
      [⟨"c1", "https://example.com/path", HashURL "https://example.com/path", 0⟩]
      ⟨"c1", "https://example.com/path", HashURL "https://example.com/path", 0⟩
      ⟨"c1", "https://example.com/path", HashURL "https://example.com/path", 0⟩
      rfl rfl

/-! ## C2: first-writer-wins -/

/-- C2 counterexample — the in-memory `MemoryStore.Save` is not a no-op on
an existing code: a second save under the same code replaces the stored
URL, so the record is not unchanged. -/
theorem memoryStore_save_overwrites :
    MemoryStore.Get ((MemoryStore.empty.Save "abc123" "https://example.com").Save "abc123"
        "https://other.com") "abc123" ≠
      MemoryStore.Get (MemoryStore.empty.Save "abc123" "https://example.com") "abc123" := by
  decide

/-- C2 (amended) — for the durable Postgres store, a second `Save` with a
code already present in the table is a no-op (`ON CONFLICT (code) DO
NOTHING`): the rows are unchanged. -/
theorem postgres_save_noop (db : PostgresStore) (s : ShortURL)
    (h : db.any (fun row => row.code == s.code) = true) :
    PostgresStore.Save db s = db := by
  unfold PostgresStore.Save
  rw [if_pos h]

/-- Witness for the amended C2 at a concrete store. -/
theorem postgres_save_noop_witness :
    PostgresStore.Save [⟨"abc123", "https://example.com", none, 0⟩]
      ⟨"abc123", "https://other.com", "", 1⟩ =
      [⟨"abc123", "https://example.com", none, 0⟩] :=
  postgres_save_noop [⟨"abc123", "https://example.com", none, 0⟩]
    ⟨"abc123", "https://other.com", "", 1⟩ (by decide)

/-! ## C3: the sliding-window counter store -/

theorem recordSeqState_eq {k : String} {w : Int} (ts : List Int) (st : RLState)
    (acc : List Int) (hst : st k = acc)
    (hacc : ∀ a ∈ acc, ∀ t ∈ ts, t - w < a)
    (hts : List.Pairwise (fun a b => b - a < w) ts) :
    (recordSeqState k w ts st) k = acc ++ ts := by
  induction ts generalizing st acc with
  | nil => simpa [recordSeqState] using hst
  | cons t rest ih =>
    have hfilter : (st k).filter (fun ts => decide (t - w < ts)) = acc := by
      rw [hst]
      apply List.filter_eq_self.mpr
      intro a ha
      simpa using hacc a ha t (List.mem_cons_self t rest)
    have hst1 : ((RateLimitMemoryStore.Record t k w st).2) k = acc ++ [t] := by
      unfold RateLimitMemoryStore.Record
      simp [hfilter]
    have hrw : recordSeqState k w (t :: rest) st =
        recordSeqState k w rest ((RateLimitMemoryStore.Record t k w st).2) := rfl
    rw [hrw]
    have hpair := List.pairwise_cons.mp hts
    have := ih ((RateLimitMemoryStore.Record t k w st).2) (acc ++ [t]) hst1 ?_ hpair.2
    · rw [this, List.append_assoc]
      rfl
    · intro a ha t2 ht2
      rcases List.mem_append.mp ha with ha | ha
      · exact hacc a ha t2 (List.mem_cons_of_mem t ht2)
      · rcases List.mem_singleton.mp ha with rfl
        have := hpair.1 t2 ht2
        omega

/-- C3 — the in-memory counter store: `Record` returns the number of
retained timestamps plus one for the current instant (hence at least one);
after a run of calls all within one window of each other on a fresh key the
final call returns the total number of calls; and a call made more than the
window after every stored timestamp returns one. -/
theorem rateLimitMemoryStore_record_spec :
    (∀ (now : Int) (k : String) (w : Int) (st : RLState),
      (RateLimitMemoryStore.Record now k w st).1 =
        (((st k).filter (fun ts => decide (now - w < ts))).length : Int) + 1 ∧
      1 ≤ (RateLimitMemoryStore.Record now k w st).1) ∧
    (∀ (k : String) (w : Int) (ts : List Int) (tn : Int) (st : RLState),
      st k = [] →
      List.Pairwise (fun a b => b - a < w) (ts ++ [tn]) →
      (RateLimitMemoryStore.Record tn k w (recordSeqState k w ts st)).1 =
        (ts.length : Int) + 1) ∧
    (∀ (now : Int) (k : String) (w : Int) (st : RLState),
      (∀ t ∈ st k, w < now - t) →
      (RateLimitMemoryStore.Record now k w st).1 = 1) := by
  refine ⟨fun now k w st => ⟨?_, ?_⟩, ?_, ?_⟩
  · unfold RateLimitMemoryStore.Record
    simp
  · unfold RateLimitMemoryStore.Record
    simp [List.length_append]
  · intro k w ts tn st hempty hpair
    have hsplit := (List.pairwise_append.mp hpair)
    have hstate : (recordSeqState k w ts st) k = ts := by
      have := recordSeqState_eq ts st [] hempty (by intro a ha; cases ha) hsplit.1
      simpa using this
    unfold RateLimitMemoryStore.Record
    simp only [hstate]
    have hkeep : ts.filter (fun t => decide (tn - w < t)) = ts := by
      apply List.filter_eq_self.mpr
      intro a ha
      have := hsplit.2.2 a ha tn (List.mem_singleton_self tn)
      simp only [decide_eq_true_eq]
      omega
    simp [hkeep]
  · intro now k w st hgap
    unfold RateLimitMemoryStore.Record
    have hdrop : (st k).filter (fun t => decide (now - w < t)) = [] := by
      apply List.filter_eq_nil_iff.mpr
      intro a ha
      have := hgap a ha
      simp only [decide_eq_true_eq]
      omega
    simp [hdrop]

/-- Witness for C3 at concrete instants. -/
theorem rateLimitMemoryStore_record_spec_witness :
    ((RateLimitMemoryStore.Record 2 "k" 60 RLState.empty).1 =
      (((RLState.empty "k").filter (fun ts => decide (2 - 60 < ts))).length : Int) + 1) ∧
    ((RateLimitMemoryStore.Record 2 "k" 60
        (recordSeqState "k" 60 [0, 1] RLState.empty)).1 = (2 : Int) + 1) ∧
    ((RateLimitMemoryStore.Record 100 "k" 10
        (fun key => if key = "k" then [0, 1] else [])).1 = 1) := by
  refine ⟨?_, ?_, ?_⟩
  · exact (rateLimitMemoryStore_record_spec.1 2 "k" 60 RLState.empty).1
  · exact rateLimitMemoryStore_record_spec.2.1 "k" 60 [0, 1] 2 RLState.empty rfl (by decide)
  · exact rateLimitMemoryStore_record_spec.2.2 100 "k" 10
      (fun key => if key = "k" then [0, 1] else []) (by decide)

/-! ## C4, C9, C10: the policy limiter -/

theorem specScan_append {σ : Type} (record : RecordFn σ) (ck : String)
    (xs ys : List (Scope × LimitConfig)) (st : σ) :
    specScan record ck (xs ++ ys) st =
      scanThen record ck ys (specScan record ck xs st) := by
  induction xs generalizing st with
  | nil => rfl
  | cons c xs ih =>
    obtain ⟨scope, limit⟩ := c
    simp only [List.cons_append, specScan]
    rcases hrec : record (PolicyLimiter.buildKey ck scope limit) limit.window st with
      e | ⟨count, st1⟩ <;> dsimp only
    · simp [scanThen]
    · by_cases hc : limit.max < count
      · rw [if_pos hc, if_pos hc]
        simp [scanThen]
      · rw [if_neg hc, if_neg hc]
        rw [show xs.append ys = xs ++ ys from rfl]
        exact ih st1

theorem checkLimits_spec {σ : Type} (record : RecordFn σ) (ck : String) (scope : Scope)
    (limits : List LimitConfig) (st : σ) :
    specScan record ck (limits.map (fun l => (scope, l))) st =
      (match PolicyLimiter.checkLimits record ck scope limits st with
       | CheckStep.cont st1 => (⟨true, none, none⟩, st1)
       | CheckStep.stop r st1 => (r, st1)) := by
  induction limits generalizing st with
  | nil => rfl
  | cons limit rest ih =>
    simp only [List.map_cons, specScan, PolicyLimiter.checkLimits]
    rcases hrec : record (PolicyLimiter.buildKey ck scope limit) limit.window st with
      e | ⟨count, st1⟩ <;> dsimp only
    by_cases hc : limit.max < count
    · rw [if_pos hc, if_pos hc]
    · rw [if_neg hc, if_neg hc]
      exact ih st1

theorem checkLimits_stop_not_allowed {σ : Type} {record : RecordFn σ} {ck : String}
    {scope : Scope} {limits : List LimitConfig} {st st1 : σ} {r : AllowResult}
    (h : PolicyLimiter.checkLimits record ck scope limits st = CheckStep.stop r st1) :
    r.allowed = false := by
  induction limits generalizing st with
  | nil => cases h
  | cons limit rest ih =>
    simp only [PolicyLimiter.checkLimits] at h
    rcases hrec : record (PolicyLimiter.buildKey ck scope limit) limit.window st with
      e | ⟨count, st2⟩ <;> rw [hrec] at h <;> dsimp only at h
    · cases h
      rfl
    · by_cases hc : limit.max < count
      · rw [if_pos hc] at h
        cases h
        rfl
      · rw [if_neg hc] at h
        exact ih h

theorem allow_eq_specScan {σ : Type} (record : RecordFn σ) (policy : Policy)
    (clientKey : String) (scopes : List Scope) (st : σ) :
    PolicyLimiter.Allow record policy clientKey scopes st =
      specScan record clientKey (checksFor policy scopes) st := by
  induction scopes generalizing st with
  | nil => rfl
  | cons scope rest ih =>
    show PolicyLimiter.allowScopes record policy clientKey (scope :: rest) st = _
    have hchecks : checksFor policy (scope :: rest) =
        (match policy.limits scope with
         | none => []
         | some limits => limits.map (fun l => (scope, l))) ++ checksFor policy rest := by
      simp [checksFor]
    rw [hchecks]
    simp only [PolicyLimiter.allowScopes]
    rcases hps : policy.limits scope with _ | limits <;> dsimp only
    · simp only [List.nil_append]
      exact ih st
    · rw [specScan_append, checkLimits_spec]
      rcases hcl : PolicyLimiter.checkLimits record clientKey scope limits st with
        st1 | ⟨r, st1⟩ <;> dsimp only
      · unfold scanThen
        rw [if_pos rfl]
        exact ih st1
      · unfold scanThen
        rw [if_neg]
        rw [checkLimits_stop_not_allowed hcl]
        simp

/-- C4 — `PolicyLimiter.Allow` refines its specification: for every counter
store it equals the left-to-right scan of the checks listed scope-by-scope
in input order and, within a scope, in registration order, where a store
error short-circuits to `(false, nil, err)`, the first overage stops with
`(false, details, nil)`, and passing every check yields `(true, nil,
nil)`. -/
theorem policyLimiter_allow_refines_scan {σ : Type} (record : RecordFn σ) (policy : Policy)
    (clientKey : String) (scopes : List Scope) (st : σ) :
    PolicyLimiter.Allow record policy clientKey scopes st =
      specScan record clientKey (checksFor policy scopes) st :=
  allow_eq_specScan record policy clientKey scopes st

theorem specScan_denied {now : Int} {ck : String} (checks : List (Scope × LimitConfig))
    (st : RLState) (e : LimitExceeded)
    (h : (specScan (memRecord now) ck checks st).1.exceeded = some e) :
    ∃ pre rest,
      checks = pre ++ (e.scope, e.config) :: rest ∧
      (specScan (memRecord now) ck checks st).2 =
        recordChecks now ck (pre ++ [(e.scope, e.config)]) st ∧
      ((specScan (memRecord now) ck checks st).2
          (PolicyLimiter.buildKey ck e.scope e.config)).getLast? = some now ∧
      (((specScan (memRecord now) ck checks st).2
          (PolicyLimiter.buildKey ck e.scope e.config)).length : Int) = e.count := by
  induction checks generalizing st with
  | nil => simp [specScan] at h
  | cons c rest ih =>
    obtain ⟨scope, limit⟩ := c
    simp only [specScan, memRecord] at h ⊢
    by_cases hc : limit.max < (RateLimitMemoryStore.Record now
        (PolicyLimiter.buildKey ck scope limit) limit.window st).1
    · rw [if_pos hc] at h ⊢
      dsimp only at h ⊢
      obtain rfl : LimitExceeded.mk scope limit
          (RateLimitMemoryStore.Record now (PolicyLimiter.buildKey ck scope limit)
            limit.window st).1 = e := by
        simpa using h
      refine ⟨[], rest, by simp, ?_, ?_, ?_⟩
      · simp [recordChecks]
      · unfold RateLimitMemoryStore.Record
        simp
      · unfold RateLimitMemoryStore.Record
        simp
    · rw [if_neg hc] at h ⊢
      obtain ⟨pre, rest2, hdecomp, hstate, hlast, hlen⟩ := ih _ h
      refine ⟨(scope, limit) :: pre, rest2, by rw [hdecomp, List.cons_append], ?_, hlast, hlen⟩
      rw [hstate]
      simp [recordChecks]

/-- C9 — a denied request still consumes quota: when `Allow` over the
in-memory counter store reports an exceeded limit, the denying check sits
at some position of the check list, every check up to and including it has
recorded the current instant into its window, and the denying window now
ends with this request's timestamp, whose inclusion is the reported
count. -/
theorem policyLimiter_denied_consumes_quota
    (now : Int) (policy : Policy) (ck : String) (scopes : List Scope) (st : RLState)
    (e : LimitExceeded)
    (h : (PolicyLimiter.Allow (memRecord now) policy ck scopes st).1.exceeded = some e) :
    ∃ pre rest,
      checksFor policy scopes = pre ++ (e.scope, e.config) :: rest ∧
      (PolicyLimiter.Allow (memRecord now) policy ck scopes st).2 =
        recordChecks now ck (pre ++ [(e.scope, e.config)]) st ∧
      ((PolicyLimiter.Allow (memRecord now) policy ck scopes st).2
          (PolicyLimiter.buildKey ck e.scope e.config)).getLast? = some now ∧
      (((PolicyLimiter.Allow (memRecord now) policy ck scopes st).2
          (PolicyLimiter.buildKey ck e.scope e.config)).length : Int) = e.count := by
  rw [allow_eq_specScan] at h ⊢
  exact specScan_denied (checksFor policy scopes) st e h

/-- Witness for C9: a zero-allowance global limit denies the first request
and that request is recorded. -/
theorem policyLimiter_denied_consumes_quota_witness :
    ∃ pre rest,
      checksFor ⟨fun s => if s = "global" then some [⟨60000000000, 0⟩] else none⟩ ["global"] =
        pre ++ (("global" : Scope), LimitConfig.mk 60000000000 0) :: rest ∧
      (PolicyLimiter.Allow (memRecord 5)
          ⟨fun s => if s = "global" then some [⟨60000000000, 0⟩] else none⟩
          "ck" ["global"] RLState.empty).2 =
        recordChecks 5 "ck" (pre ++ [(("global" : Scope), LimitConfig.mk 60000000000 0)])
          RLState.empty ∧
      ((PolicyLimiter.Allow (memRecord 5)
          ⟨fun s => if s = "global" then some [⟨60000000000, 0⟩] else none⟩
          "ck" ["global"] RLState.empty).2
          (PolicyLimiter.buildKey "ck" "global" ⟨60000000000, 0⟩)).getLast? = some 5 ∧
      (((PolicyLimiter.Allow (memRecord 5)
          ⟨fun s => if s = "global" then some [⟨60000000000, 0⟩] else none⟩
          "ck" ["global"] RLState.empty).2
          (PolicyLimiter.buildKey "ck" "global" ⟨60000000000, 0⟩)).length : Int) = 1 :=
  policyLimiter_denied_consumes_quota 5
    ⟨fun s => if s = "global" then some [⟨60000000000, 0⟩] else none⟩
    "ck" ["global"] RLState.empty ⟨"global", ⟨60000000000, 0⟩, 1⟩ (by decide)

theorem not_mem_checksFor {policy : Policy} {s : Scope} (h : policy.limits s = none)
    (scopes : List Scope) (l : LimitConfig) : (s, l) ∉ checksFor policy scopes := by
  intro hmem
  unfold checksFor at hmem
  rw [List.mem_flatMap] at hmem
  obtain ⟨x, hx, hmem⟩ := hmem
  rcases hlx : policy.limits x with _ | ls <;> rw [hlx] at hmem
  · simp at hmem
  · rw [List.mem_map] at hmem
    obtain ⟨l0, hl0, he⟩ := hmem
    have hxs : x = s := congrArg Prod.fst he
    rw [hxs, h] at hlx
    cases hlx

theorem checksFor_filter_isSome (policy : Policy) (scopes : List Scope) :
    checksFor policy (scopes.filter fun s => (policy.limits s).isSome) =
      checksFor policy scopes := by
  induction scopes with
  | nil => rfl
  | cons x rest ih =>
    rcases hlx : policy.limits x with _ | ls
    · rw [List.filter_cons_of_neg (by simp [hlx]), ih]
      unfold checksFor
      rw [List.flatMap_cons, hlx]
      rfl
    · rw [List.filter_cons_of_pos (by simp [hlx])]
      unfold checksFor
      rw [List.flatMap_cons, List.flatMap_cons, hlx]
      unfold checksFor at ih
      rw [ih]

theorem checksFor_eq_nil {policy : Policy} {scopes : List Scope}
    (h : ∀ s ∈ scopes, policy.limits s = none) : checksFor policy scopes = [] := by
  induction scopes with
  | nil => rfl
  | cons scope rest ih =>
    have hs : policy.limits scope = none := h scope (List.mem_cons_self scope rest)
    have hrest : ∀ s ∈ rest, policy.limits s = none :=
      fun s hsm => h s (List.mem_cons_of_mem scope hsm)
    unfold checksFor
    rw [List.flatMap_cons, hs]
    simpa [checksFor] using ih hrest

/-- C10 — scopes without configured limits are skipped without touching the
counter store: a scope with no entry in the policy map contributes no check
at all (so no `Record` call is ever made for it, whatever other scopes the
input list carries); for every counter store, `Allow` on any input list
computes the same result and final store state as on its configured
sublist; and when no input scope is configured the call returns
`(true, nil, nil)` with the store state unchanged. -/
theorem policyLimiter_skips_unconfigured {σ : Type} (record : RecordFn σ) (policy : Policy)
    (ck : String) (scopes : List Scope) (st : σ) :
    (∀ s ∈ scopes, policy.limits s = none →
      ∀ l : LimitConfig, (s, l) ∉ checksFor policy scopes) ∧
    PolicyLimiter.Allow record policy ck scopes st =
      PolicyLimiter.Allow record policy ck
        (scopes.filter fun s => (policy.limits s).isSome) st ∧
    ((∀ s ∈ scopes, policy.limits s = none) →
      PolicyLimiter.Allow record policy ck scopes st = (⟨true, none, none⟩, st)) := by
  refine ⟨fun s _ hnone l => not_mem_checksFor hnone scopes l, ?_, fun h => ?_⟩
  · rw [allow_eq_specScan, allow_eq_specScan, checksFor_filter_isSome]
  · rw [allow_eq_specScan, checksFor_eq_nil h]
    rfl

/-- Witness for C10 on a mixed scope list: the unconfigured scope `custom`
contributes no check next to the configured `global`, filtering it out of
the input changes neither the result nor the store state, and an
all-unconfigured list leaves an arbitrary counter store untouched. -/
theorem policyLimiter_skips_unconfigured_witness :
    ("custom" ∈ ["global", "custom"] ∧
      (⟨fun s => if s = "global" then some [⟨60000000000, 5⟩] else none⟩ : Policy).limits
        "custom" = none) ∧
    ((("custom" : Scope), (⟨60000000000, 5⟩ : LimitConfig)) ∉
      checksFor ⟨fun s => if s = "global" then some [⟨60000000000, 5⟩] else none⟩
        ["global", "custom"]) ∧
    PolicyLimiter.Allow (fun _ _ (n : Nat) => Except.ok ((0 : Int), n + 1))
      ⟨fun s => if s = "global" then some [⟨60000000000, 5⟩] else none⟩
      "ck" ["global", "custom"] 0 =
      PolicyLimiter.Allow (fun _ _ (n : Nat) => Except.ok ((0 : Int), n + 1))
        ⟨fun s => if s = "global" then some [⟨60000000000, 5⟩] else none⟩
        "ck" (["global", "custom"].filter fun s =>
          ((⟨fun x => if x = "global" then some [⟨60000000000, 5⟩] else none⟩ : Policy).limits
            s).isSome) 0 ∧
    PolicyLimiter.Allow (fun _ _ (n : Nat) => Except.ok ((0 : Int), n + 1))
      ⟨fun s => if s = "global" then some [⟨60000000000, 5⟩] else none⟩
      "ck" ["custom"] 0 = (⟨true, none, none⟩, 0) :=
  ⟨⟨by decide, by decide⟩,
   (policyLimiter_skips_unconfigured (fun _ _ (n : Nat) => Except.ok ((0 : Int), n + 1))
      ⟨fun s => if s = "global" then some [⟨60000000000, 5⟩] else none⟩
      "ck" ["global", "custom"] 0).1 "custom" (by decide) (by decide) ⟨60000000000, 5⟩,
   (policyLimiter_skips_unconfigured (fun _ _ (n : Nat) => Except.ok ((0 : Int), n + 1))
      ⟨fun s => if s = "global" then some [⟨60000000000, 5⟩] else none⟩
      "ck" ["global", "custom"] 0).2.1,
   (policyLimiter_skips_unconfigured (fun _ _ (n : Nat) => Except.ok ((0 : Int), n + 1))
      ⟨fun s => if s = "global" then some [⟨60000000000, 5⟩] else none⟩
      "ck" ["custom"] 0).2.2 (by decide)⟩

/-! ## C6: publish failures are swallowed by the handler -/

/-- C6 — publish failures never become user-visible errors: when the
strategy succeeds on create and the repository read succeeds on redirect,
the handler returns its success responses — the JSON body with `Location`
header, and the 301 with `Location` set to the original URL — even though
both publish functions return errors on the exact events the handler
publishes. -/
theorem handler_swallows_publish_errors
    (h : URLHandler) (meta : RequestMeta) (reqURL reqStrategy code : String)
    (strategyFn : String → Except String ShortURL) (su su2 : ShortURL)
    (e1 e2 : String) (now : Int)
    (hstrat : h.strategies (if reqStrategy = "" then h.defaultStrategy else reqStrategy) =
      some strategyFn)
    (hok : strategyFn reqURL = Except.ok su)
    (hpub1 : h.publishURLCreated
      ⟨su.code, su.originalURL, su.urlHash,
        (if reqStrategy = "" then h.defaultStrategy else reqStrategy), su.createdAt,
        meta.clientIP, meta.userAgent⟩ = Except.error e1)
    (hget : h.getByCode code = Except.ok su2)
    (hpub2 : h.publishURLAccessed ⟨code, now, meta.clientIP, meta.userAgent, meta.referrer⟩ =
      Except.error e2) :
    URLHandler.CreateShortURL h meta reqURL reqStrategy =
      Except.ok ⟨h.baseURL ++ "/" ++ su.code, su.code, h.baseURL ++ "/" ++ su.code,
        su.originalURL⟩ ∧
    URLHandler.RedirectToURL h meta now code = Except.ok ⟨301, su2.originalURL⟩ := by
  constructor
  · unfold URLHandler.CreateShortURL
    dsimp only
    rw [hstrat]
    dsimp only
    rw [hok]
  · unfold URLHandler.RedirectToURL
    rw [hget]

/-- Witness for C6 at a concrete handler whose publish functions always
fail. -/
theorem handler_swallows_publish_errors_witness :
    URLHandler.CreateShortURL
      { strategies := fun s =>
          if s = "token" then
            some (fun _ => Except.ok ⟨"abc123", "https://example.com", "", 0⟩)
          else none,
        getByCode := fun _ => Except.ok ⟨"abc123", "https://example.com", "", 0⟩,
        baseURL := "http://localhost:8888", defaultStrategy := "token",
        publishURLCreated := fun _ => Except.error "publish error",
        publishURLAccessed := fun _ => Except.error "publish error" }
      ⟨"192.168.1.1", "TestAgent", "https://referrer.example"⟩ "https://example.com" "" =
      Except.ok ⟨"http://localhost:8888/abc123", "abc123", "http://localhost:8888/abc123",
        "https://example.com"⟩ ∧
    URLHandler.RedirectToURL
      { strategies := fun s =>
          if s = "token" then
            some (fun _ => Except.ok ⟨"abc123", "https://example.com", "", 0⟩)
          else none,
        getByCode := fun _ => Except.ok ⟨"abc123", "https://example.com", "", 0⟩,
        baseURL := "http://localhost:8888", defaultStrategy := "token",
        publishURLCreated := fun _ => Except.error "publish error",
        publishURLAccessed := fun _ => Except.error "publish error" }
      ⟨"192.168.1.1", "TestAgent", "https://referrer.example"⟩ 9 "abc123" =
      Except.ok ⟨301, "https://example.com"⟩ :=
  handler_swallows_publish_errors _ _ "https://example.com" "" "abc123"
    (fun _ => Except.ok ⟨"abc123", "https://example.com", "", 0⟩)
    ⟨"abc123", "https://example.com", "", 0⟩ ⟨"abc123", "https://example.com", "", 0⟩
    "publish error" "publish error" 9 rfl rfl rfl rfl rfl

/-! ## C7: consumer start-up and subscription rollback -/

/-- C7 counterexample — when the second topic subscription fails,
`Consumer.Start` returns the error but the first topic's subscription is
still active: nothing is rolled back. -/
theorem consumer_start_no_rollback :
    Consumer.Start (fun t => if t = TopicURLAccessed then some "subscribe error" else none) =
      { errorResult := some "subscribe error",
        activeSubscriptions := [TopicURLCreated], workerStarted := false } ∧
    (Consumer.Start
        (fun t => if t = TopicURLAccessed then some "subscribe error" else none)
        ).activeSubscriptions ≠ [] := by
  constructor
  · rfl
  · intro hcontra
    cases hcontra

/-- C7 (amended) — `Consumer.Start` subscribes the created topic, then the
accessed topic; a first-subscribe failure returns the error with no
subscription active; a second-subscribe failure returns the error with the
first subscription still active and no worker started (no rollback); when
both succeed, both subscriptions are active and the worker starts. -/
theorem consumer_start_behaviour (subscribe : String → Option String) (e : String) :
    (subscribe TopicURLCreated = some e →
      Consumer.Start subscribe =
        { errorResult := some e, activeSubscriptions := [], workerStarted := false }) ∧
    (subscribe TopicURLCreated = none → subscribe TopicURLAccessed = some e →
      Consumer.Start subscribe =
        { errorResult := some e, activeSubscriptions := [TopicURLCreated],
          workerStarted := false }) ∧
    (subscribe TopicURLCreated = none → subscribe TopicURLAccessed = none →
      Consumer.Start subscribe =
        { errorResult := none, activeSubscriptions := [TopicURLCreated, TopicURLAccessed],
          workerStarted := true }) := by
  refine ⟨fun h1 => ?_, fun h1 h2 => ?_, fun h1 h2 => ?_⟩ <;>
    unfold Consumer.Start <;> rw [h1]
  · rw [h2]
  · rw [h2]

/-- Witness for the amended C7 at concrete subscribers. -/
theorem consumer_start_behaviour_witness :
    (Consumer.Start (fun _ => some "boom") =
      { errorResult := some "boom", activeSubscriptions := [], workerStarted := false }) ∧
    (Consumer.Start (fun t => if t = TopicURLAccessed then some "boom" else none) =
      { errorResult := some "boom", activeSubscriptions := [TopicURLCreated],
        workerStarted := false }) ∧
    (Consumer.Start (fun _ => none) =
      { errorResult := none, activeSubscriptions := [TopicURLCreated, TopicURLAccessed],
        workerStarted := true }) :=
  ⟨(consumer_start_behaviour (fun _ => some "boom") "boom").1 rfl,
   (consumer_start_behaviour (fun t => if t = TopicURLAccessed then some "boom" else none)
      "boom").2.1 rfl rfl,
   (consumer_start_behaviour (fun _ => none) "boom").2.2 rfl rfl⟩

/-! ## C5 and C8: the normalisation laws -/

/-- C8 counterexample — `NormalizeURL` is not idempotent: on
`http://example.org/p//` it strips only one trailing slash, and a second
application strips another, so normalise of the normalised output differs
from the first output. -/
theorem normalizeURL_not_idempotent :
    NormalizeURL "http://example.org/p//" = some "http://example.org/p/" ∧
    NormalizeURL "http://example.org/p/" = some "http://example.org/p" ∧
    (NormalizeURL "http://example.org/p//").bind NormalizeURL ≠
      NormalizeURL "http://example.org/p//" :=
  ⟨by decide, by decide, by decide⟩

/-- Witness for the amended C8 on `https://example.com/a/`, whose path does
not end in a double slash. -/
theorem NormalizeURL_idem_witness :
    parseURL "https://example.com/a/" =
      some ⟨strBytes "https", strBytes "example.com", strBytes "/a/", [], false, []⟩ ∧
    ¬(hasSuffixB (strBytes "/a/") [47, 47] = true ∧ 3 ≤ (strBytes "/a/").length) ∧
    NormalizeURL "https://example.com/a/" = some "https://example.com/a" ∧
    NormalizeURL "https://example.com/a" = some "https://example.com/a" :=
  ⟨by decide, by decide, by decide,
   @NormalizeURL_idem_of_parse "https://example.com/a/" "https://example.com/a"
     ⟨strBytes "https", strBytes "example.com", strBytes "/a/", [], false, []⟩
     (by decide) (by decide) (by decide)⟩

/-- C5 counterexample — the equivalence law fails on the trailing-slash
clause in two independent ways.  (1) As claimed: `http://example.com/a//`
and `http://example.com/a/` differ only by a single trailing slash on a
non-root path, yet normalisation strips exactly one trailing slash from
each, leaving `/a/` versus `/a`, so the hashes differ.  (2) Even with the
shorter path not ending in a slash, a percent-escaped path breaks the law:
`url.Parse` stores `http://example.com/a%2fb` with decoded `Path = /a/b`
and `RawPath = /a%2fb`, and `URL.String` keeps `RawPath` only while `Path`
is untouched — so the slashless URL renders back as
`http://example.com/a%2fb` while trimming the trailing slash of
`http://example.com/a%2fb/` invalidates its `RawPath` and re-renders the
decoded path as `/a/b`; the two normalised forms hash differently although
the decoded paths `/a/b/` and `/a/b` differ only by a single trailing
slash on a non-root path not itself ending in a slash. -/
theorem hashURL_trailing_slash_counterexample :
    (differOnlyByClaim
      ⟨strBytes "http", strBytes "example.com", strBytes "/a//", [], false, []⟩
      ⟨strBytes "http", strBytes "example.com", strBytes "/a/", [], false, []⟩ = true ∧
    parseURL "http://example.com/a//" =
      some ⟨strBytes "http", strBytes "example.com", strBytes "/a//", [], false, []⟩ ∧
    parseURL "http://example.com/a/" =
      some ⟨strBytes "http", strBytes "example.com", strBytes "/a/", [], false, []⟩ ∧
    (NormalizeURL "http://example.com/a//").map HashURL ≠
      (NormalizeURL "http://example.com/a/").map HashURL) ∧
    (parseURLE "http://example.com/a%2fb/" =
      some ⟨strBytes "http", strBytes "example.com", strBytes "/a/b/", strBytes "/a%2fb/",
        [], false, []⟩ ∧
    parseURLE "http://example.com/a%2fb" =
      some ⟨strBytes "http", strBytes "example.com", strBytes "/a/b", strBytes "/a%2fb",
        [], false, []⟩ ∧
    differOnlyByAmended
      (URLE.toURL ⟨strBytes "http", strBytes "example.com", strBytes "/a/b/",
        strBytes "/a%2fb/", [], false, []⟩)
      (URLE.toURL ⟨strBytes "http", strBytes "example.com", strBytes "/a/b",
        strBytes "/a%2fb", [], false, []⟩) = true ∧
    NormalizeURLE "http://example.com/a%2fb/" = some "http://example.com/a/b" ∧
    NormalizeURLE "http://example.com/a%2fb" = some "http://example.com/a%2fb" ∧
    (NormalizeURLE "http://example.com/a%2fb/").map HashURL ≠
      (NormalizeURLE "http://example.com/a%2fb").map HashURL) :=
  ⟨⟨by decide, by decide, by decide, by decide⟩,
   ⟨by decide, by decide, by decide, by decide, by decide, by decide⟩⟩

/-- C5 (amended) — on the escape-free grammar (inputs `parseURL` accepts:
no percent-escapes, so `Parse` stores no `RawPath`) the equivalence law
holds once the trailing-slash clause requires the shorter path not to end
in a slash itself: for all such URLs that differ only by case of scheme or
host, a default-port suffix, a single trailing slash on a non-root
non-slash-ended path, or the fragment, the hashes of their normalised
forms agree (and normalisation succeeds).  On percent-escaped paths even
this strict clause fails — conjunct 2 of the counterexample — because
`URL.String` keeps `RawPath` only while the decoded path is untouched. -/
theorem hashURL_eq_of_differOnlyByAmended {a b : String} {ua ub : URL}
    (hpa : parseURL a = some ua) (hpb : parseURL b = some ub)
    (hrel : differOnlyByAmended ua ub = true) :
    (NormalizeURL a).map HashURL = (NormalizeURL b).map HashURL ∧
    (NormalizeURL a).isSome = true := by
  have hva : ValidURL ua := parseBytes_valid hpa
  have hvb : ValidURL ub := parseBytes_valid hpb
  rw [NormalizeURL_eq_of_parse hpa, NormalizeURL_eq_of_parse hpb,
    normalizeParsed_eq_of_amended hva hvb hrel]
  exact ⟨rfl, rfl⟩

/-- Witness for the amended C5: `HTTP://Example.com:80/path/` and
`http://example.com/path#frag` differ by scheme and host case, the `:80`
default port, a trailing slash and the fragment, and hash equally after
normalisation. -/
theorem hashURL_eq_of_differOnlyByAmended_witness :
    parseURL "HTTP://Example.com:80/path/" =
      some ⟨strBytes "http", strBytes "Example.com:80", strBytes "/path/", [], false, []⟩ ∧
    parseURL "http://example.com/path#frag" =
      some ⟨strBytes "http", strBytes "example.com", strBytes "/path", [], false,
        strBytes "frag"⟩ ∧
    differOnlyByAmended
      ⟨strBytes "http", strBytes "Example.com:80", strBytes "/path/", [], false, []⟩
      ⟨strBytes "http", strBytes "example.com", strBytes "/path", [], false,
        strBytes "frag"⟩ = true ∧
    ((NormalizeURL "HTTP://Example.com:80/path/").map HashURL =
       (NormalizeURL "http://example.com/path#frag").map HashURL ∧
     (NormalizeURL "HTTP://Example.com:80/path/").isSome = true) :=
  ⟨by decide, by decide, by decide,
   @hashURL_eq_of_differOnlyByAmended "HTTP://Example.com:80/path/"
     "http://example.com/path#frag"
     ⟨strBytes "http", strBytes "Example.com:80", strBytes "/path/", [], false, []⟩
     ⟨strBytes "http", strBytes "example.com", strBytes "/path", [], false,
       strBytes "frag"⟩
     (by decide) (by decide) (by decide)⟩
